import Mathlib

/-!
# Verification of the reelrunner caption-timing and styling subsystem

This file is a shallow embedding, in Lean 4, of the deterministic core of the
reelrunner repository: the heuristic word-timestamp estimator, the lexical
color classifiers, the TTS text normalizers, the timestamp file format, the
background-visual normalization arithmetic, and the (spec-described) caption
grouper.  Each definition is translated from the Python source named in its
doc comment.

Modelling conventions:
* Python strings are modelled as `List Char`.  Python's Unicode-aware
  character classes (`\w`, `\s`, `str.isdigit`, `str.lower`) are modelled by
  their ASCII behaviour (`Char.isAlphanum`, the six ASCII whitespace
  characters, `Char.isDigit`, `Char.toLower`); all string constants involved
  in the verified properties are ASCII.
* Python floats are modelled as exact rationals (`ℚ`).  Every Python float
  value is a dyadic rational, hence has a terminating decimal expansion; the
  places where this matters are noted locally.  `round(x, 2)` is modelled by
  rounding to the nearest multiple of 1/100 (Python resolves ties to even on
  the underlying binary value; no verified property depends on a tie).
* Scanning loops (`str.replace`, `re.sub` with the concrete patterns used by
  the source) are modelled either by structural state machines or by
  recursion with a fuel argument bounded by the input length (each step
  consumes at least one input character, so the fuel never runs out).
-/

/-! ## Character classes and basic string operations -/

/-- Python's `\s` class, restricted to ASCII: space, tab, newline, carriage
return, vertical tab, form feed. -/
def isSpaceChar (c : Char) : Bool :=
  c = ' ' || c = '\t' || c = '\n' || c = '\x0d' || c = '\x0b' || c = '\x0c'

/-- Python's `\w` class, restricted to ASCII: alphanumeric or underscore. -/
def isWordChar (c : Char) : Bool :=
  c.isAlphanum || c = '_'

/-- Split a list at every element satisfying `P`, dropping the separators and
keeping empty chunks (the chunk structure of Python's `str.split(sep)` /
`re.split`). -/
def splitP (P : Char → Bool) : List Char → List (List Char)
  | [] => [[]]
  | c :: rest =>
    if P c then [] :: splitP P rest
    else (splitP P rest).modifyHead (fun t => c :: t)

/-- Python's argument-less `str.split()`: split on whitespace runs and drop
empty tokens. -/
def splitWs (s : List Char) : List (List Char) :=
  (splitP isSpaceChar s).filter (fun t => !t.isEmpty)

/-- Python's `str.strip()`: drop whitespace from both ends. -/
def stripWs (s : List Char) : List Char :=
  ((s.dropWhile isSpaceChar).reverse.dropWhile isSpaceChar).reverse

/-- `re.sub(r'[^\w\s]', '', w)` from `scriptgenrator.generate_timestamps`
(line 274): delete every character that is neither a word character nor
whitespace. -/
def cleanWord (w : List Char) : List Char :=
  w.filter (fun c => isWordChar c || isSpaceChar c)

/-! ## The heuristic timestamp estimator
(`src/reelrungen2/scriptgenrator.py`, lines 258–299) -/

/-- A `(word, start, end)` caption record; `start` and `end` are seconds.
`end` is a Lean keyword, so the field is named `endT`. -/
structure WordTimestamp where
  start : ℚ
  endT : ℚ
  word : List Char
  deriving DecidableEq, Repr

/-- Python's `round(x, 2)`: round to the nearest multiple of 1/100
(ties modelled by Mathlib's `round`, which rounds half up; Python rounds
half to even — no verified property depends on a tie). -/
def round2 (q : ℚ) : ℚ :=
  ((round (q * 100) : ℤ) : ℚ) / 100

/-- `scriptgenrator.py` line 267: `words_per_second = 2.5`. -/
def wordsPerSecond : ℚ := 5 / 2

/-- `scriptgenrator.py` line 286:
`any(p in word for p in [',', '.', '!', '?', '...', ':'])`.
Python's `in` on strings is the substring test, modelled by `<:+:`. -/
def hasPausePunct (word : List Char) : Bool :=
  decide ([','] <:+: word) || decide (['.'] <:+: word) ||
  decide (['!'] <:+: word) || decide (['?'] <:+: word) ||
  decide (['.', '.', '.'] <:+: word) || decide ([':'] <:+: word)

/-- The loop body of `generate_timestamps` (lines 269–297), over the
whitespace-split tokens, threading the running time `current_time`. -/
def genTS : List (List Char) → ℚ → List WordTimestamp
  | [], _ => []
  | word :: rest, current_time =>
    let clean_word := cleanWord word
    if clean_word.isEmpty then
      genTS rest current_time
    else
      let char_count : ℚ := clean_word.length
      let base_duration : ℚ := 1 / wordsPerSecond
      let duration := base_duration * (7/10 + 3/10 * (char_count / 7))
      let duration := if hasPausePunct word then duration + 1/5 else duration
      let end_time := current_time + duration
      { start := round2 current_time, endT := round2 end_time,
        word := clean_word } :: genTS rest end_time

/-- `scriptgenrator.generate_timestamps` (lines 258–299): split the script on
whitespace and emit one rounded cumulative record per non-empty cleaned
token, starting at time 0. -/
def generate_timestamps (script : List Char) : List WordTimestamp :=
  genTS (splitWs script) 0

/-- The whitespace-split tokens of a script that remain non-empty after
cleaning (the tokens that receive a record). -/
def validCleanedTokens (script : List Char) : List (List Char) :=
  ((splitWs script).map cleanWord).filter (fun t => !t.isEmpty)

/-! ### Supporting lemmas for the estimator -/

theorem round2_mono {a b : ℚ} (h : a ≤ b) : round2 a ≤ round2 b := by
  unfold round2
  have h100 : a * 100 ≤ b * 100 := by nlinarith
  have : round (a * 100) ≤ round (b * 100) := by
    rw [round_eq, round_eq]
    exact Int.floor_mono (by linarith)
  have : ((round (a * 100) : ℤ) : ℚ) ≤ ((round (b * 100) : ℤ) : ℚ) := by
    exact_mod_cast this
  linarith

theorem round2_zero : round2 0 = 0 := by
  unfold round2
  norm_num

/-- The per-token duration added by `genTS` is positive. -/
theorem genTS_duration_pos (word : List Char) :
    0 < (let char_count : ℚ := (cleanWord word).length
         let base_duration : ℚ := 1 / wordsPerSecond
         let duration := base_duration * (7/10 + 3/10 * (char_count / 7))
         if hasPausePunct word then duration + 1/5 else duration) := by
  have hc : (0 : ℚ) ≤ ((cleanWord word).length : ℚ) := by positivity
  simp only [wordsPerSecond]
  split <;> nlinarith

theorem genTS_length (ws : List (List Char)) (t : ℚ) :
    (genTS ws t).length = ((ws.map cleanWord).filter (fun l => !l.isEmpty)).length := by
  induction ws generalizing t with
  | nil => simp [genTS]
  | cons w rest ih =>
    by_cases h : (cleanWord w).isEmpty
    · simp [genTS, List.filter_cons, h, ih]
    · simp [genTS, List.filter_cons, h, ih]

theorem genTS_words (ws : List (List Char)) (t : ℚ) :
    (genTS ws t).map WordTimestamp.word
      = (ws.map cleanWord).filter (fun l => !l.isEmpty) := by
  induction ws generalizing t with
  | nil => simp [genTS]
  | cons w rest ih =>
    simp only [genTS, List.map_cons, List.filter_cons]
    by_cases h : (cleanWord w).isEmpty
    · simp [h, ih]
    · simp [h, ih]

theorem genTS_head?_start (ws : List (List Char)) (t : ℚ) (r : WordTimestamp)
    (h : (genTS ws t).head? = some r) : r.start = round2 t := by
  induction ws generalizing t with
  | nil => simp [genTS] at h
  | cons w rest ih =>
    simp only [genTS] at h
    by_cases hw : (cleanWord w).isEmpty
    · simp only [hw, if_pos rfl] at h
      exact ih t h
    · simp only [hw] at h
      simp only [Bool.false_eq_true, if_false, List.head?_cons, Option.some.injEq] at h
      subst h
      rfl

theorem genTS_start_le_end (ws : List (List Char)) (t : ℚ) (r : WordTimestamp)
    (h : r ∈ genTS ws t) : r.start ≤ r.endT := by
  induction ws generalizing t with
  | nil => simp [genTS] at h
  | cons w rest ih =>
    simp only [genTS] at h
    by_cases hw : (cleanWord w).isEmpty
    · simp only [hw, if_pos rfl] at h
      exact ih t h
    · simp only [hw, Bool.false_eq_true, if_false, List.mem_cons] at h
      rcases h with h | h
      · subst h
        have hpos := genTS_duration_pos w
        simp only at hpos ⊢
        exact round2_mono (by linarith)
      · exact ih _ h

theorem genTS_chain (ws : List (List Char)) (t : ℚ) :
    List.Chain' (fun a b => a.endT = b.start) (genTS ws t) := by
  induction ws generalizing t with
  | nil => simp [genTS]
  | cons w rest ih =>
    simp only [genTS]
    by_cases hw : (cleanWord w).isEmpty
    · simp only [hw, if_pos rfl]
      exact ih t
    · simp only [hw, Bool.false_eq_true, if_false]
      rw [List.chain'_cons']
      refine ⟨fun b hb => ?_, ih _⟩
      exact (genTS_head?_start _ _ b hb).symm

/-! ### Claim C1 -/

/-- Claim C1: for every non-empty script, `generate_timestamps` returns one
record per whitespace-split token that remains non-empty after cleaning; the
first record starts at 0.0; every record has `start ≤ end`; and each record's
`end` equals the next record's `start` (hence `end[i] ≤ start[i+1]`). -/
theorem c1_heuristic_estimator (s : List Char) (_hs : s ≠ []) :
    (generate_timestamps s).length = (validCleanedTokens s).length
    ∧ (∀ r ∈ generate_timestamps s, r.start ≤ r.endT)
    ∧ List.Chain' (fun a b => a.endT = b.start) (generate_timestamps s)
    ∧ ∀ h : generate_timestamps s ≠ [],
        ((generate_timestamps s).head h).start = 0 := by
  refine ⟨genTS_length _ 0, fun r hr => genTS_start_le_end _ 0 r hr,
    genTS_chain _ 0, fun h => ?_⟩
  have hh := genTS_head?_start (splitWs s) 0 ((generate_timestamps s).head h)
    (by rw [← List.head?_eq_head h]; rfl)
  rw [hh, round2_zero]

/-- Witness for C1 at the concrete script `"hi there!"`. -/
theorem c1_heuristic_estimator_witness :
    (generate_timestamps ("hi there!".toList)).length
        = (validCleanedTokens ("hi there!".toList)).length
    ∧ (∀ r ∈ generate_timestamps ("hi there!".toList), r.start ≤ r.endT)
    ∧ List.Chain' (fun a b => a.endT = b.start)
        (generate_timestamps ("hi there!".toList))
    ∧ ((generate_timestamps ("hi there!".toList)).head (by decide)).start = 0 := by
  have h := c1_heuristic_estimator ("hi there!".toList) (by decide)
  exact ⟨h.1, h.2.1, h.2.2.1, h.2.2.2 (by decide)⟩

/-! ### Claim C2: the per-word duration formula -/

/-- Following the spec's words: the original token triggers the 0.2 s pause
iff it contains one of the punctuation characters in the list
`, . ! ? ... :` (the ellipsis entry contributes only the dot). -/
def specPausePunct (word : List Char) : Bool :=
  word.any (fun c => c = ',' || c = '.' || c = '!' || c = '?' || c = ':')

/-- Following the spec's words: duration per word is
`0.4 * (0.7 + 0.3 * (char_count / 7))` seconds (base duration 0.4 s = 1/2.5),
plus a fixed 0.2 s pause for punctuation-bearing tokens. -/
def specWordDuration (word : List Char) : ℚ :=
  2/5 * (7/10 + 3/10 * (((cleanWord word).length : ℚ) / 7))
    + (if specPausePunct word then 1/5 else 0)

/-- Following the spec's words: cumulative emission, each word starting where
the previous ended, all times rounded to 2 decimals on emission. -/
def specEmit : List (List Char) → ℚ → List WordTimestamp
  | [], _ => []
  | w :: rest, t =>
    if (cleanWord w).isEmpty then specEmit rest t
    else { start := round2 t, endT := round2 (t + specWordDuration w),
           word := cleanWord w } :: specEmit rest (t + specWordDuration w)

/-- Spec-side counterpart of `generate_timestamps`. -/
def specTimestamps (script : List Char) : List WordTimestamp :=
  specEmit (splitWs script) 0

theorem singleton_infix_iff (c : Char) (w : List Char) : [c] <:+: w ↔ c ∈ w := by
  constructor
  · intro h
    exact h.sublist.subset (List.mem_singleton_self c)
  · intro h
    obtain ⟨s, t, rfl⟩ := List.append_of_mem h
    exact ⟨s, t, by simp⟩

theorem hasPausePunct_eq_spec (w : List Char) :
    hasPausePunct w = specPausePunct w := by
  unfold hasPausePunct specPausePunct
  rw [Bool.eq_iff_iff]
  simp only [Bool.or_eq_true, decide_eq_true_eq, List.any_eq_true]
  constructor
  · rintro (((((h | h) | h) | h) | h) | h)
    · exact ⟨',', (singleton_infix_iff _ _).1 h, by simp⟩
    · exact ⟨'.', (singleton_infix_iff _ _).1 h, by simp⟩
    · exact ⟨'!', (singleton_infix_iff _ _).1 h, by simp⟩
    · exact ⟨'?', (singleton_infix_iff _ _).1 h, by simp⟩
    · exact ⟨'.', h.sublist.subset (by simp), by simp⟩
    · exact ⟨':', (singleton_infix_iff _ _).1 h, by simp⟩
  · rintro ⟨c, hc, h⟩
    rcases h with ((((h | h) | h) | h) | h) <;> subst h
    · exact Or.inl (Or.inl (Or.inl (Or.inl (Or.inl ((singleton_infix_iff _ _).2 hc)))))
    · exact Or.inl (Or.inl (Or.inl (Or.inl (Or.inr ((singleton_infix_iff _ _).2 hc)))))
    · exact Or.inl (Or.inl (Or.inl (Or.inr ((singleton_infix_iff _ _).2 hc))))
    · exact Or.inl (Or.inl (Or.inr ((singleton_infix_iff _ _).2 hc)))
    · exact Or.inr ((singleton_infix_iff _ _).2 hc)

theorem genTS_eq_specEmit (ws : List (List Char)) (t : ℚ) :
    genTS ws t = specEmit ws t := by
  induction ws generalizing t with
  | nil => rfl
  | cons w rest ih =>
    by_cases hw : (cleanWord w).isEmpty
    · simp [genTS, specEmit, hw, ih]
    · have hdur :
          (if hasPausePunct w then
              1 / wordsPerSecond * (7/10 + 3/10 * (((cleanWord w).length : ℚ) / 7)) + 1/5
            else 1 / wordsPerSecond * (7/10 + 3/10 * (((cleanWord w).length : ℚ) / 7)))
            = specWordDuration w := by
        rw [hasPausePunct_eq_spec]
        unfold specWordDuration wordsPerSecond
        by_cases hp : specPausePunct w
        · simp only [hp, if_true]
          ring
        · simp only [hp, Bool.false_eq_true, if_false]
          ring
      simp only [genTS, specEmit, hw, Bool.false_eq_true, if_false]
      rw [← hdur]
      by_cases hp : hasPausePunct w
      · simp only [hp, if_true, ih]
      · simp only [hp, Bool.false_eq_true, if_false, ih]

/-- Claim C2: the estimator's pre-rounding duration for each emitted word is
exactly `0.4 * (0.7 + 0.3 * (char_count / 7))` seconds plus a fixed 0.2 s
iff the original token contains one of `, . ! ? ... :` — stated as a
refinement: the source computation equals the spec-side cumulative emission
built from that formula — and a 7-character cleaned word receives exactly the
0.4 s base duration (plus only its possible pause). -/
theorem c2_duration_formula (s w : List Char) :
    generate_timestamps s = specTimestamps s
    ∧ ((cleanWord w).length = 7 →
        specWordDuration w = 2/5 + (if specPausePunct w then 1/5 else 0)) := by
  constructor
  · exact genTS_eq_specEmit (splitWs s) 0
  · intro h7
    unfold specWordDuration
    rw [h7]
    norm_num

/-- Witness for C2: the script `"two words."` and the 7-letter word
`"mundane"`. -/
theorem c2_duration_formula_witness :
    generate_timestamps ("two words.".toList) = specTimestamps ("two words.".toList)
    ∧ specWordDuration ("mundane".toList)
        = 2/5 + (if specPausePunct ("mundane".toList) then 1/5 else 0) :=
  ⟨(c2_duration_formula ("two words.".toList) ("mundane".toList)).1,
   (c2_duration_formula ("two words.".toList) ("mundane".toList)).2 (by decide)⟩

/-! ### Claim C4: the words reconstruct the cleaned script -/

/-- Space-join a list of words (the claim's "joining ... with single
spaces"). -/
def joinWithSpaces (ts : List (List Char)) : List Char :=
  List.intercalate [' '] ts

/-- Whitespace normalization of a string: split on whitespace and re-join
with single spaces. -/
def normalizeWs (s : List Char) : List Char :=
  List.intercalate [' '] (splitWs s)

theorem modifyHead_cons_map (f : List Char → List Char) (c : Char)
    (hf : f (c :: []) = c :: f [] ∧ ∀ x, f (c :: x) = c :: f x)
    (L : List (List Char)) :
    (L.map f).modifyHead (fun t => c :: t)
      = (L.modifyHead (fun t => c :: t)).map f := by
  cases L with
  | nil => rfl
  | cons x xs => simp [List.modifyHead, hf.2 x]

theorem map_modifyHead_cons_drop (f : List Char → List Char) (c : Char)
    (hf : ∀ x, f (c :: x) = f x) (L : List (List Char)) :
    (L.modifyHead (fun t => c :: t)).map f = L.map f := by
  cases L with
  | nil => rfl
  | cons x xs => simp [List.modifyHead, hf x]

/-- Deleting punctuation characters commutes with whitespace chunking:
cleaning the whole string and then splitting gives the chunk-wise cleaning
of the original split. -/
theorem splitP_cleanWord_comm (s : List Char) :
    splitP isSpaceChar (cleanWord s)
      = (splitP isSpaceChar s).map cleanWord := by
  induction s with
  | nil => simp [splitP, cleanWord]
  | cons c rest ih =>
    by_cases hsp : isSpaceChar c
    · have hk : (isWordChar c || isSpaceChar c) = true := by simp [hsp]
      simp only [cleanWord, List.filter_cons, hk, if_pos rfl] at ih ⊢
      simp only [splitP, hsp, if_pos rfl]
      simp [ih, cleanWord]
    · by_cases hw : isWordChar c
      · have hk : (isWordChar c || isSpaceChar c) = true := by simp [hw]
        simp only [cleanWord, List.filter_cons, hk, if_pos rfl] at ih ⊢
        simp only [splitP, hsp, Bool.false_eq_true, if_false]
        rw [ih]
        exact modifyHead_cons_map cleanWord c
          ⟨by simp [cleanWord, List.filter_cons, hk],
           fun x => by simp [cleanWord, List.filter_cons, hk]⟩ _
      · have hk : (isWordChar c || isSpaceChar c) = false := by simp [hw, hsp]
        simp only [cleanWord, List.filter_cons, hk] at ih ⊢
        simp only [Bool.false_eq_true, if_false, splitP, hsp]
        rw [ih]
        exact (map_modifyHead_cons_drop cleanWord c
          (fun x => by simp [cleanWord, List.filter_cons, hk]) _).symm

/-- Filtering out empty chunks before or after a chunk-wise map that sends
`[]` to `[]` gives the same non-empty chunks. -/
theorem filter_map_filter_isEmpty (f : List Char → List Char)
    (hf : f [] = []) (L : List (List Char)) :
    ((L.filter (fun t => !t.isEmpty)).map f).filter (fun t => !t.isEmpty)
      = (L.map f).filter (fun t => !t.isEmpty) := by
  induction L with
  | nil => rfl
  | cons x xs ih =>
    by_cases hx : x.isEmpty
    · have hx' : x = [] := by
        cases x
        · rfl
        · simp [List.isEmpty] at hx
      subst hx'
      simp [List.filter_cons, hf, ih]
    · simp [List.filter_cons, hx, ih]

/-- Claim C4: space-joining the `word` fields of the estimator's output
yields exactly the script with all punctuation removed and whitespace
normalized (punctuation deleted first, whitespace runs then collapsed by the
split/join). -/
theorem c4_words_reconstruct_script (s : List Char) :
    joinWithSpaces ((generate_timestamps s).map WordTimestamp.word)
      = normalizeWs (cleanWord s) := by
  unfold joinWithSpaces normalizeWs generate_timestamps
  rw [genTS_words]
  unfold splitWs
  rw [splitP_cleanWord_comm]
  rw [filter_map_filter_isEmpty cleanWord rfl]

/-! ## Lexical color classifiers
(`src/reelrungen2/reelcomposer.py` lines 26–56 and
`src/ReelRun/make_reel.py` lines 58–68) -/

/-- `reelcomposer.DANGER_WORDS` (lines 26–30). -/
def DANGER_WORDS : List (List Char) :=
  ["danger", "death", "kill", "warning",
   "risk", "scary", "fear", "dead", "died",
   "disaster", "tragedy", "horror"].map String.toList

/-- `reelcomposer.HIGHLIGHT_WORDS` (lines 32–35). -/
def HIGHLIGHT_WORDS : List (List Char) :=
  ["amazing", "incredible", "shocking", "wow",
   "unbelievable", "mind-blowing", "crazy", "insane"].map String.toList

/-- `make_reel.danger_words` (lines 58–61). -/
def danger_words : List (List Char) :=
  ["danger", "death", "kill", "warning",
   "risk", "scary", "fear", "dead"].map String.toList

/-- Python `str.lower`, modelled on ASCII. -/
def lowerStr (w : List Char) : List Char :=
  w.map Char.toLower

/-- `reelcomposer.get_word_color` (lines 38–56): digit → green, danger set →
red, highlight set → cyan, default yellow.  `c.isdigit()` is modelled by
`Char.isDigit` (ASCII digits). -/
def get_word_color (word : List Char) : String :=
  let word_lower := lowerStr word
  if word.any Char.isDigit then "#4CFF00"
  else if word_lower ∈ DANGER_WORDS then "#FF3B3B"
  else if word_lower ∈ HIGHLIGHT_WORDS then "#00D9FF"
  else "#FFD93D"

/-- `make_reel.get_color` (lines 63–68): digit → green, danger set → red,
default yellow; there is no highlight rule.  `re.search(r"\d", word)` is
modelled by `List.any Char.isDigit` (ASCII digits). -/
def get_color (word : List Char) : String :=
  if word.any Char.isDigit then "#4CFF00"
  else if lowerStr word ∈ danger_words then "#FF3B3B"
  else "#FFD93D"

/-- A classifier rule: a predicate on the word together with the color it
yields. -/
def ClassifierRule : Type := (List Char → Bool) × String

/-- Following the spec's words (§4.3): evaluate rules in priority order,
first match wins, otherwise the default color. -/
def classifyFirstMatch (rules : List ClassifierRule) (dflt : String)
    (word : List Char) : String :=
  match rules with
  | [] => dflt
  | r :: rest =>
    if r.1 word then r.2 else classifyFirstMatch rest dflt word

/-- The spec's rule list for the full classifier: digits, then the danger
set, then the highlight set. -/
def specRulesFull : List ClassifierRule :=
  [(fun w => w.any Char.isDigit, "#4CFF00"),
   (fun w => decide (lowerStr w ∈ DANGER_WORDS), "#FF3B3B"),
   (fun w => decide (lowerStr w ∈ HIGHLIGHT_WORDS), "#00D9FF")]

/-- The rule list actually implemented by `make_reel.get_color`: digits, then
its smaller danger set — no highlight rule. -/
def specRulesMakeReel : List ClassifierRule :=
  [(fun w => w.any Char.isDigit, "#4CFF00"),
   (fun w => decide (lowerStr w ∈ danger_words), "#FF3B3B")]

/-! ### Claim C3 -/

/-- Counterexample to C3 as stated: the claim's rule set (digit / danger /
highlight / default, same for both implementations) fails for `get_color`:
on the danger word `"died"` and the highlight word `"amazing"` the two
classifiers disagree, `get_color` returning the default color where the
claimed rules require the danger and highlight colors. -/
theorem c3_counterexample :
    get_color ("died".toList) = "#FFD93D"
    ∧ get_word_color ("died".toList) = "#FF3B3B"
    ∧ get_color ("amazing".toList) = "#FFD93D"
    ∧ get_word_color ("amazing".toList) = "#00D9FF"
    ∧ get_color ("died".toList) ≠ get_word_color ("died".toList) := by
  refine ⟨?_, ?_, ?_, ?_, ?_⟩ <;> decide

/-- Claim C3 (amended): each classifier evaluates its own rule list in
priority order with first match winning — `get_word_color` the full
digit/danger/highlight/default list, `get_color` only digit/danger/default
with the smaller danger set and no highlight rule.  The digit rule takes
priority in both (so e.g. `"danger2"` is green), and matching is on the
lowercased word (so casing is irrelevant). -/
theorem c3_classifier_rules (w : List Char) :
    get_word_color w = classifyFirstMatch specRulesFull "#FFD93D" w
    ∧ get_color w = classifyFirstMatch specRulesMakeReel "#FFD93D" w := by
  constructor
  · by_cases h1 : w.any Char.isDigit
    · simp [get_word_color, classifyFirstMatch, specRulesFull, h1]
    · by_cases h2 : lowerStr w ∈ DANGER_WORDS
      · simp [get_word_color, classifyFirstMatch, specRulesFull, h1, h2]
      · by_cases h3 : lowerStr w ∈ HIGHLIGHT_WORDS
        · simp [get_word_color, classifyFirstMatch, specRulesFull, h1, h2, h3]
        · simp [get_word_color, classifyFirstMatch, specRulesFull, h1, h2, h3]
  · by_cases h1 : w.any Char.isDigit
    · simp [get_color, classifyFirstMatch, specRulesMakeReel, h1]
    · by_cases h2 : lowerStr w ∈ danger_words
      · simp [get_color, classifyFirstMatch, specRulesMakeReel, h1, h2]
      · simp [get_color, classifyFirstMatch, specRulesMakeReel, h1, h2]

/-! ### Claim C10: agreement of the two classifiers -/

/-- The four danger words known only to `reelcomposer`. -/
def extraDangerWords : List (List Char) :=
  ["died", "disaster", "tragedy", "horror"].map String.toList

theorem danger_words_subset (x : List Char) (h : x ∈ danger_words) :
    x ∈ DANGER_WORDS := by
  fin_cases h <;> decide

theorem DANGER_WORDS_split (x : List Char) (h : x ∈ DANGER_WORDS) :
    x ∈ danger_words ∨ x ∈ extraDangerWords := by
  fin_cases h <;> decide

/-- Claim C10: on ASCII words whose lowercase form is in neither the
highlight set nor the extra danger words `{died, disaster, tragedy, horror}`,
the two classifier implementations agree. -/
theorem c10_classifiers_agree (w : List Char)
    (_hascii : ∀ c ∈ w, c.toNat < 128)
    (hhi : lowerStr w ∉ HIGHLIGHT_WORDS)
    (hex : lowerStr w ∉ extraDangerWords) :
    get_color w = get_word_color w := by
  unfold get_color get_word_color
  by_cases h1 : w.any Char.isDigit
  · simp [h1]
  · by_cases h2 : lowerStr w ∈ danger_words
    · simp [h1, h2, danger_words_subset _ h2]
    · have h2' : lowerStr w ∉ DANGER_WORDS := by
        intro hmem
        rcases DANGER_WORDS_split _ hmem with h | h
        · exact h2 h
        · exact hex h
      simp [h1, h2, h2', hhi]

/-- Witness for C10 at the concrete word `"DANGER"` (both classifiers answer
`"#FF3B3B"`). -/
theorem c10_classifiers_agree_witness :
    get_color ("DANGER".toList) = get_word_color ("DANGER".toList) :=
  c10_classifiers_agree ("DANGER".toList) (by decide) (by decide) (by decide)

/-! ## Background visual normalization
(`src/ReelRun/make_reel.py` lines 29–42 and
`src/reelrungen2/reelcomposer.py` lines 170–192) -/

/-- How a normalization plan reaches the target frame: center-crop, pad with
a fill color, or leave as is. -/
inductive FitMode where
  | crop
  | pad
  | exact
  deriving DecidableEq, Repr

/-- A background-normalization plan: the uniform scale factor applied to the
source, the scaled dimensions, how the scaled visual is fitted, and the final
frame dimensions. -/
structure NormPlan where
  scale : ℚ
  scaledW : ℚ
  scaledH : ℚ
  mode : FitMode
  finalW : ℚ
  finalH : ℚ
  deriving DecidableEq, Repr

/-- `make_reel.py` target size (lines 29–30). -/
def TARGET_W : ℚ := 720

/-- `make_reel.py` target size (lines 29–30). -/
def TARGET_H : ℚ := 1280

/-- `make_reel.py` lines 32–42: `scale = max(TARGET_W/video.w,
TARGET_H/video.h)`, `video.resize(scale)`, then a center crop of exactly
720×1280.  Pixel dimensions are modelled as exact rationals. -/
def mr_plan (w h : ℚ) : NormPlan :=
  let scale := max (TARGET_W / w) (TARGET_H / h)
  { scale := scale, scaledW := w * scale, scaledH := h * scale,
    mode := .crop, finalW := TARGET_W, finalH := TARGET_H }

/-- `reelcomposer.compose_reel` lines 174–192: `video.resize(height=1280)`
(a height-only fit, scale `1280/h`), then center-crop to width 720 if the
scaled width exceeds 720, or pad both sides with `(720 - w') // 2` black
pixels if it is narrower. -/
def rc_plan (w h : ℚ) : NormPlan :=
  let scale := TARGET_H / h
  let w' := w * scale
  if w' > TARGET_W then
    { scale := scale, scaledW := w', scaledH := TARGET_H,
      mode := .crop, finalW := TARGET_W, finalH := TARGET_H }
  else if w' < TARGET_W then
    let padding : ℤ := ⌊(TARGET_W - w') / 2⌋
    { scale := scale, scaledW := w', scaledH := TARGET_H,
      mode := .pad, finalW := w' + 2 * padding, finalH := TARGET_H }
  else
    { scale := scale, scaledW := w', scaledH := TARGET_H,
      mode := .exact, finalW := w', finalH := TARGET_H }

/-- Following the spec's words (§4.6): the claimed uniform scale factor
`max(target_width/source_width, target_height/source_height)`. -/
def specCoverScale (w h : ℚ) : ℚ :=
  max (TARGET_W / w) (TARGET_H / h)


theorem rc_plan_scale (w h : ℚ) : (rc_plan w h).scale = TARGET_H / h := by
  dsimp only [rc_plan]
  split
  · rfl
  · split <;> rfl

theorem rc_plan_crop (w h : ℚ) (hh : 0 < h)
    (hlt : TARGET_W * h < TARGET_H * w) :
    rc_plan w h =
      { scale := TARGET_H / h, scaledW := w * (TARGET_H / h),
        scaledH := TARGET_H, mode := .crop,
        finalW := TARGET_W, finalH := TARGET_H } := by
  have hgt : TARGET_W < w * (TARGET_H / h) := by
    have e : w * (TARGET_H / h) = (TARGET_H * w) / h := by ring
    rw [e, lt_div_iff hh]
    linarith
  dsimp only [rc_plan]
  rw [if_pos hgt]

theorem rc_plan_pad (w h : ℚ) (hh : 0 < h)
    (hlt : TARGET_H * w < TARGET_W * h) :
    (rc_plan w h).mode = FitMode.pad := by
  have hlt' : w * (TARGET_H / h) < TARGET_W := by
    have e : w * (TARGET_H / h) = (TARGET_H * w) / h := by ring
    rw [e, div_lt_iff hh]
    linarith
  dsimp only [rc_plan]
  rw [if_neg (by exact not_lt.mpr hlt'.le), if_pos hlt']

/-- Counterexample to C8 as stated: for a 360×1280 source, the claimed
normalizer scales by `max(720/360, 1280/1280) = 2` and center-crops, but
`compose_reel` scales by `1280/1280 = 1` and pads the still-360-pixel-wide
result instead of cropping. -/
theorem c8_counterexample :
    (rc_plan 360 1280).scale = 1
    ∧ specCoverScale 360 1280 = 2
    ∧ (rc_plan 360 1280).scale ≠ specCoverScale 360 1280
    ∧ (rc_plan 360 1280).mode = FitMode.pad
    ∧ (mr_plan 360 1280).scale = 2 := by
  have hspec : specCoverScale 360 1280 = 2 := by
    unfold specCoverScale TARGET_W TARGET_H
    rw [max_eq_left (by norm_num)]
    norm_num
  have hscale : (rc_plan 360 1280).scale = 1 := by
    rw [rc_plan_scale]
    unfold TARGET_H
    norm_num
  refine ⟨hscale, hspec, ?_, ?_, ?_⟩
  · rw [hscale, hspec]
    norm_num
  · apply rc_plan_pad 360 1280 (by norm_num)
    unfold TARGET_W TARGET_H
    norm_num
  · dsimp only [mr_plan]
    exact hspec

/-- Claim C8 (amended): `make_reel` scales uniformly by
`max(720/sw, 1280/sh)` — for a 1920×1080 source this is 32/27 ≈ 1.1852,
scaled dimensions 61440/27 ≈ 2275.6 by 1280 — and the scaled visual covers
the 720×1280 target, which is then obtained by a center crop.
`compose_reel` instead scales by `1280/sh` and center-crops to exactly
720×1280 only when the scaled width exceeds 720 (aspect wider than 9:16),
padding symmetrically when it is narrower. -/
theorem c8_background_normalizer (w h : ℚ) (hw : 0 < w) (hh : 0 < h) :
    (mr_plan w h).scale = specCoverScale w h
    ∧ TARGET_W ≤ (mr_plan w h).scaledW
    ∧ TARGET_H ≤ (mr_plan w h).scaledH
    ∧ (mr_plan w h).mode = FitMode.crop
    ∧ (mr_plan w h).finalW = 720 ∧ (mr_plan w h).finalH = 1280
    ∧ (mr_plan 1920 1080).scale = 32/27
    ∧ (mr_plan 1920 1080).scaledW = 61440/27
    ∧ (mr_plan 1920 1080).scaledH = 1280
    ∧ (rc_plan w h).scale = TARGET_H / h
    ∧ (TARGET_W * h < TARGET_H * w →
        (rc_plan w h).mode = FitMode.crop
        ∧ (rc_plan w h).finalW = 720 ∧ (rc_plan w h).finalH = 1280)
    ∧ (TARGET_H * w < TARGET_W * h → (rc_plan w h).mode = FitMode.pad) := by
  have hex : (mr_plan 1920 1080).scale = 32/27 := by
    dsimp only [mr_plan]
    rw [max_eq_right (by norm_num [TARGET_W, TARGET_H])]
    norm_num [TARGET_H]
  refine ⟨rfl, ?_, ?_, rfl, rfl, rfl, hex, ?_, ?_, rc_plan_scale w h, ?_, ?_⟩
  · have h1 : TARGET_W / w ≤ (mr_plan w h).scale := le_max_left _ _
    have h2 : (TARGET_W / w) * w ≤ (mr_plan w h).scale * w :=
      mul_le_mul_of_nonneg_right h1 (le_of_lt hw)
    have h3 : (TARGET_W / w) * w = TARGET_W := by field_simp
    have h4 : (mr_plan w h).scaledW = (mr_plan w h).scale * w := by
      dsimp only [mr_plan]
      ring
    rw [h4, ← h3]
    exact h2
  · have h1 : TARGET_H / h ≤ (mr_plan w h).scale := le_max_right _ _
    have h2 : (TARGET_H / h) * h ≤ (mr_plan w h).scale * h :=
      mul_le_mul_of_nonneg_right h1 (le_of_lt hh)
    have h3 : (TARGET_H / h) * h = TARGET_H := by field_simp
    have h4 : (mr_plan w h).scaledH = (mr_plan w h).scale * h := by
      dsimp only [mr_plan]
      ring
    rw [h4, ← h3]
    exact h2
  · have h4 : (mr_plan 1920 1080).scaledW = 1920 * (mr_plan 1920 1080).scale := by
      unfold mr_plan
      simp only
    rw [h4, hex]
    norm_num
  · have h4 : (mr_plan 1920 1080).scaledH = 1080 * (mr_plan 1920 1080).scale := by
      unfold mr_plan
      simp only
    rw [h4, hex]
    norm_num
  · intro hlt
    rw [rc_plan_crop w h hh hlt]
    exact ⟨rfl, rfl, rfl⟩
  · intro hlt
    exact rc_plan_pad w h hh hlt

/-- Witness for C8 at the 1920×1080 source of the spec's scenario. -/
theorem c8_background_normalizer_witness :
    (mr_plan 1920 1080).scale = specCoverScale 1920 1080
    ∧ (mr_plan 1920 1080).scale = 32/27
    ∧ (mr_plan 1920 1080).scaledW = 61440/27
    ∧ TARGET_W ≤ (mr_plan 1920 1080).scaledW
    ∧ (rc_plan 1920 1080).mode = FitMode.crop := by
  obtain ⟨a, b, c, d, e, f, g, i, j, k, l, m⟩ :=
    c8_background_normalizer 1920 1080 (by norm_num) (by norm_num)
  exact ⟨a, g, i, b, (l (by unfold TARGET_W TARGET_H; norm_num)).1⟩

/-! ## Caption grouping (spec §4.4)

No caption-grouping code exists under `src/` — both composition scripts emit
one overlay clip per word — so the fixed-size grouping policy is modelled
from the spec's words. -/

/-- Modelled from the spec: the fixed-size grouping accumulator is missing
from the source; §4.4 says to accumulate words into a group until it reaches
the configured maximum size `k` or the current word is the last word, then
close the group.  The fuel argument (the number of words still to place)
makes the recursion structural; one word is consumed per step, so fuel
bounded below by the list length never runs out. -/
def chunkFuel (k : ℕ) : ℕ → List WordTimestamp → List (List WordTimestamp)
  | 0, _ => []
  | _ + 1, [] => []
  | fuel + 1, x :: xs => (x :: xs.take (k - 1)) :: chunkFuel k fuel (xs.drop (k - 1))

/-- Modelled from the spec: fixed-size grouping of a WordTimestamp sequence
with maximum group size `k`. -/
def fixedSizeChunks (k : ℕ) (ts : List WordTimestamp) : List (List WordTimestamp) :=
  chunkFuel k ts.length ts

/-- A CaptionGroup (spec §3): consecutive words with derived start/end. -/
structure CaptionGroup where
  words : List WordTimestamp
  start : ℚ
  endT : ℚ
  deriving DecidableEq, Repr

/-- Modelled from the spec: group `start` = first member's `start`, group
`end` = last member's `end`. -/
def toCaptionGroup (g : List WordTimestamp) : CaptionGroup :=
  { words := g,
    start := (g.head?.map WordTimestamp.start).getD 0,
    endT := (g.getLast?.map WordTimestamp.endT).getD 0 }

/-- Modelled from the spec: the caption groups of a timestamp sequence under
fixed-size grouping. -/
def captionGroups (k : ℕ) (ts : List WordTimestamp) : List CaptionGroup :=
  (fixedSizeChunks k ts).map toCaptionGroup

/-- The group sizes produced by `chunkFuel`, as a function of the input
length alone. -/
def chunkSizes (k : ℕ) : ℕ → ℕ → List ℕ
  | 0, _ => []
  | _ + 1, 0 => []
  | fuel + 1, n + 1 => min k (n + 1) :: chunkSizes k fuel (n + 1 - k)

theorem chunkFuel_sizes (k : ℕ) (hk : 1 ≤ k) :
    ∀ (fuel : ℕ) (l : List WordTimestamp), l.length ≤ fuel →
      (chunkFuel k fuel l).map List.length = chunkSizes k fuel l.length := by
  intro fuel
  induction fuel with
  | zero =>
    intro l hl
    have : l = [] := List.length_eq_zero.mp (Nat.le_zero.mp hl)
    subst this
    rfl
  | succ fuel ih =>
    intro l hl
    cases l with
    | nil => rfl
    | cons x xs =>
      simp only [chunkFuel, List.map_cons, List.length_cons, chunkSizes]
      congr 1
      · simp only [List.length_cons, List.length_take]
        omega
      · rw [ih _ (by simp only [List.length_drop]; simp at hl; omega)]
        congr 1
        simp only [List.length_drop]
        omega

theorem chunkFuel_join (k : ℕ) :
    ∀ (fuel : ℕ) (l : List WordTimestamp), l.length ≤ fuel →
      (chunkFuel k fuel l).flatten = l := by
  intro fuel
  induction fuel with
  | zero =>
    intro l hl
    have : l = [] := List.length_eq_zero.mp (Nat.le_zero.mp hl)
    subst this
    rfl
  | succ fuel ih =>
    intro l hl
    cases l with
    | nil => rfl
    | cons x xs =>
      simp only [chunkFuel, List.flatten_cons]
      rw [ih _ (by simp only [List.length_drop]; simp at hl; omega)]
      simp [List.take_append_drop]

theorem chunkFuel_ne_nil (k : ℕ) :
    ∀ (fuel : ℕ) (l : List WordTimestamp) (g : List WordTimestamp),
      g ∈ chunkFuel k fuel l → g ≠ [] := by
  intro fuel
  induction fuel with
  | zero =>
    intro l g hg
    simp [chunkFuel] at hg
  | succ fuel ih =>
    intro l g hg
    cases l with
    | nil => simp [chunkFuel] at hg
    | cons x xs =>
      simp only [chunkFuel, List.mem_cons] at hg
      rcases hg with hg | hg
      · subst hg
        simp
      · exact ih _ _ hg

/-- Claim C9 (spec-modelled): fixed-size grouping with size 4 over a 10-word
sequence yields groups of sizes `[4,4,2]` whose concatenation is the
original sequence; every group is non-empty with `start`/`end` equal to its
first/last member's respective times; and a non-empty script of at most 4
words produces exactly one group. -/
theorem c9_fixed_size_grouping (ts10 tsS : List WordTimestamp)
    (h10 : ts10.length = 10) (hne : tsS ≠ []) (hle : tsS.length ≤ 4) :
    (fixedSizeChunks 4 ts10).map List.length = [4, 4, 2]
    ∧ (fixedSizeChunks 4 ts10).flatten = ts10
    ∧ (∀ g ∈ captionGroups 4 ts10,
        g.words ≠ [] ∧
        ∀ h : g.words ≠ [],
          g.start = (g.words.head h).start ∧ g.endT = (g.words.getLast h).endT)
    ∧ fixedSizeChunks 4 tsS = [tsS] := by
  refine ⟨?_, ?_, ?_, ?_⟩
  · unfold fixedSizeChunks
    rw [chunkFuel_sizes 4 (by norm_num) _ _ le_rfl, h10]
    decide
  · exact chunkFuel_join 4 _ _ le_rfl
  · intro g hg
    simp only [captionGroups, List.mem_map] at hg
    obtain ⟨gw, hgw, rfl⟩ := hg
    have hne' : gw ≠ [] := chunkFuel_ne_nil 4 _ _ _ hgw
    refine ⟨hne', fun h => ⟨?_, ?_⟩⟩
    · simp only [toCaptionGroup, List.head?_eq_head hne', Option.map_some', Option.getD_some]
    · simp only [toCaptionGroup, List.getLast?_eq_getLast _ hne', Option.map_some', Option.getD_some]
  · cases tsS with
    | nil => exact absurd rfl hne
    | cons x xs =>
      unfold fixedSizeChunks
      simp only [List.length_cons, chunkFuel]
      have hxs : xs.length ≤ 3 := by simp at hle; omega
      rw [List.take_of_length_le hxs, List.drop_eq_nil_of_le hxs]
      cases hxl : xs.length with
      | zero => rfl
      | succ n => rfl

/-- Witness for C9: ten (resp. three) copies of a trivial record. -/
theorem c9_fixed_size_grouping_witness :
    (fixedSizeChunks 4 (List.replicate 10 ⟨0, 0, []⟩)).map List.length = [4, 4, 2]
    ∧ fixedSizeChunks 4 (List.replicate 3 ⟨0, 0, []⟩)
        = [List.replicate 3 ⟨0, 0, []⟩] := by
  have h := c9_fixed_size_grouping (List.replicate 10 ⟨0, 0, []⟩)
    (List.replicate 3 ⟨0, 0, []⟩) (by decide) (by decide) (by decide)
  exact ⟨h.1, h.2.2.2⟩

/-! ## TTS text normalization
(`src/reelrungen2/scriptgenrator.py` `humanize_for_tts`, lines 177–202, and
`src/ReelRun/fetchFact.py` `humanize_for_tts`, lines 79–93) -/

/-- `re.sub(r"\s+", " ", text)`: collapse every whitespace run to a single
space.  The Boolean state records whether we are inside a run whose single
space was already emitted. -/
def collapseWsAux : Bool → List Char → List Char
  | _, [] => []
  | prevSpace, c :: rest =>
    if isSpaceChar c then
      if prevSpace then collapseWsAux true rest
      else ' ' :: collapseWsAux true rest
    else c :: collapseWsAux false rest

/-- `re.sub(r"\s+", " ", text)`. -/
def collapseWs (s : List Char) : List Char := collapseWsAux false s

/-- Python `str.replace(a, b)` for single characters. -/
def replaceChar (a b : Char) (s : List Char) : List Char :=
  s.map (fun c => if c = a then b else c)

/-- Python `str.replace(pat, rep)`: scan left to right, replacing each
non-overlapping occurrence of `pat`; the replacement is not rescanned.  One
input character is consumed per step, so fuel bounded below by the input
length never runs out. -/
def replaceSubFuel (pat rep : List Char) : ℕ → List Char → List Char
  | 0, s => s
  | _ + 1, [] => []
  | fuel + 1, c :: rest =>
    if pat.isPrefixOf (c :: rest) then
      rep ++ replaceSubFuel pat rep fuel ((c :: rest).drop pat.length)
    else c :: replaceSubFuel pat rep fuel rest

/-- Python `str.replace(pat, rep)` (for the non-empty literal patterns the
source uses). -/
def pyReplace (pat rep s : List Char) : List Char :=
  replaceSubFuel pat rep s.length s

/-- Scanner state for `re.sub(r",\s*,+", ", ", s)`: outside any candidate
match; after a comma with the whitespace seen so far buffered (unemitted);
or inside the comma run of a confirmed match. -/
inductive CCState where
  | norm
  | afterComma (buf : List Char)
  | run
  deriving DecidableEq

/-- What a pending `CCState` contributes at end of input. -/
def ccFlush : CCState → List Char
  | .norm => []
  | .afterComma buf => ',' :: buf
  | .run => []

/-- `re.sub(r",\s*,+", ", ", s)`: a comma followed by optional whitespace
and at least one more comma is replaced by `", "`, the greedy comma run
being consumed; an unconfirmed candidate is flushed verbatim. -/
def collapseCommasAux : CCState → List Char → List Char
  | st, [] => ccFlush st
  | .norm, c :: rest =>
    if c = ',' then collapseCommasAux (.afterComma []) rest
    else c :: collapseCommasAux .norm rest
  | .afterComma buf, c :: rest =>
    if c = ',' then ',' :: ' ' :: collapseCommasAux .run rest
    else if isSpaceChar c then collapseCommasAux (.afterComma (buf ++ [c])) rest
    else (',' :: buf) ++ c :: collapseCommasAux .norm rest
  | .run, c :: rest =>
    if c = ',' then collapseCommasAux .run rest
    else c :: collapseCommasAux .norm rest

/-- `re.sub(r",\s*,+", ", ", s)` (line 191 / line 85). -/
def collapseCommas (s : List Char) : List Char := collapseCommasAux .norm s

/-- Emit a completed run of `n` consecutive dots, capped at three when the
run has length at least four. -/
def dotsFlush (n : ℕ) : List Char :=
  if 4 ≤ n then ['.', '.', '.'] else List.replicate n '.'

/-- `re.sub(r"\.{4,}", "...", s)`: `n` counts the pending dot run. -/
def capDotsAux : ℕ → List Char → List Char
  | n, [] => dotsFlush n
  | n, c :: rest =>
    if c = '.' then capDotsAux (n + 1) rest
    else dotsFlush n ++ c :: capDotsAux 0 rest

/-- `re.sub(r"\.{4,}", "...", s)` (line 194 / line 86). -/
def capDots (s : List Char) : List Char := capDotsAux 0 s

/-- Lines 197–201 (resp. 88–91): when the text contains a period and the
clause before the first period has between `lo` and 14 whitespace-split
words, replace that first period by `"... "` followed by the stripped
remainder.  `lo` is 5 in `scriptgenrator` and 6 in `fetchFact`. -/
def pausePass (lo : ℕ) (cleaned : List Char) : List Char :=
  if '.' ∈ cleaned then
    if lo ≤ (splitWs (cleaned.takeWhile (fun c => c != '.'))).length
        ∧ (splitWs (cleaned.takeWhile (fun c => c != '.'))).length ≤ 14 then
      cleaned.takeWhile (fun c => c != '.')
        ++ '.' :: '.' :: '.' :: ' '
        :: stripWs (cleaned.drop ((cleaned.takeWhile (fun c => c != '.')).length + 1))
    else cleaned
  else cleaned

/-- `scriptgenrator.humanize_for_tts`, lines 181–194: everything before the
opening-hook pause. -/
def sgPre (text : List Char) : List Char :=
  let cleaned := stripWs (collapseWs text)
  let cleaned := replaceChar ';' ',' cleaned
  let cleaned := replaceChar ':' ',' cleaned
  let cleaned := pyReplace " - ".toList ", ".toList cleaned
  let cleaned := pyReplace " -- ".toList ", ".toList cleaned
  let cleaned := (pyReplace "(".toList ", ".toList cleaned).filter (fun c => c != ')')
  let cleaned := collapseCommas cleaned
  capDots cleaned

/-- `scriptgenrator.humanize_for_tts` (lines 177–202): pause window 5–14. -/
def humanize_sg (text : List Char) : List Char :=
  pausePass 5 (sgPre text)

/-- `fetchFact.humanize_for_tts`, lines 80–86: same stages as
`scriptgenrator` but with no parenthesis handling. -/
def ffPre (text : List Char) : List Char :=
  let cleaned := stripWs (collapseWs text)
  let cleaned := replaceChar ';' ',' cleaned
  let cleaned := replaceChar ':' ',' cleaned
  let cleaned := pyReplace " - ".toList ", ".toList cleaned
  let cleaned := pyReplace " -- ".toList ", ".toList cleaned
  let cleaned := collapseCommas cleaned
  capDots cleaned

/-- `fetchFact.humanize_for_tts` (lines 79–93): pause window 6–14. -/
def humanize_ff (text : List Char) : List Char :=
  pausePass 6 (ffPre text)

/-! ### Character-provenance lemmas for the normalizer passes -/

theorem mem_collapseWsAux (s : List Char) :
    ∀ (b : Bool) (c : Char), c ∈ collapseWsAux b s →
      c = ' ' ∨ (c ∈ s ∧ isSpaceChar c = false) := by
  induction s with
  | nil => intro b c hc; simp [collapseWsAux] at hc
  | cons x rest ih =>
    intro b c hc
    simp only [collapseWsAux] at hc
    by_cases hx : isSpaceChar x = true
    · rw [if_pos hx] at hc
      cases b with
      | true =>
        rw [if_pos rfl] at hc
        rcases ih true c hc with h | ⟨h1, h2⟩
        · exact Or.inl h
        · exact Or.inr ⟨List.mem_cons_of_mem _ h1, h2⟩
      | false =>
        rw [if_neg (by simp)] at hc
        rcases List.mem_cons.mp hc with h | h
        · exact Or.inl h
        · rcases ih true c h with h2 | ⟨h3, h4⟩
          · exact Or.inl h2
          · exact Or.inr ⟨List.mem_cons_of_mem _ h3, h4⟩
    · rw [if_neg hx] at hc
      rcases List.mem_cons.mp hc with h | h
      · subst h
        exact Or.inr ⟨List.mem_cons_self _ _, by simpa using hx⟩
      · rcases ih false c h with h2 | ⟨h3, h4⟩
        · exact Or.inl h2
        · exact Or.inr ⟨List.mem_cons_of_mem _ h3, h4⟩

theorem stripWs_infix_self (s : List Char) : stripWs s <:+: s := by
  unfold stripWs
  have h1 : s.dropWhile isSpaceChar <:+ s := List.dropWhile_suffix _
  have h2 : (s.dropWhile isSpaceChar).reverse.dropWhile isSpaceChar
      <:+ (s.dropWhile isSpaceChar).reverse := List.dropWhile_suffix _
  have h2' : ((s.dropWhile isSpaceChar).reverse.dropWhile isSpaceChar).reverse.reverse
      <:+ (s.dropWhile isSpaceChar).reverse := by simpa using h2
  have h3 := List.reverse_suffix.mp h2'
  exact h3.isInfix.trans h1.isInfix

theorem mem_stripWs (s : List Char) (c : Char) (hc : c ∈ stripWs s) : c ∈ s :=
  (stripWs_infix_self s).sublist.subset hc

theorem mem_replaceChar (a b : Char) (s : List Char) (c : Char)
    (hc : c ∈ replaceChar a b s) : c = b ∨ c ∈ s := by
  simp only [replaceChar, List.mem_map] at hc
  obtain ⟨x, hx, hcx⟩ := hc
  by_cases hxa : x = a
  · simp only [hxa, if_pos rfl] at hcx
    exact Or.inl hcx.symm
  · simp only [hxa, if_false] at hcx
    subst hcx
    exact Or.inr hx

theorem replaceChar_not_mem (a b : Char) (hne : b ≠ a) (s : List Char) :
    a ∉ replaceChar a b s := by
  intro hmem
  simp only [replaceChar, List.mem_map] at hmem
  obtain ⟨x, _, hcx⟩ := hmem
  by_cases hxa : x = a
  · rw [if_pos hxa] at hcx
    exact hne hcx
  · rw [if_neg hxa] at hcx
    exact hxa hcx

theorem mem_replaceSubFuel (pat rep : List Char) :
    ∀ (fuel : ℕ) (s : List Char) (c : Char),
      c ∈ replaceSubFuel pat rep fuel s → c ∈ s ∨ c ∈ rep := by
  intro fuel
  induction fuel with
  | zero => intro s c hc; exact Or.inl hc
  | succ fuel ih =>
    intro s c hc
    cases s with
    | nil => simp [replaceSubFuel] at hc
    | cons x rest =>
      simp only [replaceSubFuel] at hc
      by_cases hp : pat.isPrefixOf (x :: rest) = true
      · rw [if_pos hp] at hc
        rcases List.mem_append.mp hc with hc | hc
        · exact Or.inr hc
        · rcases ih _ c hc with h | h
          · exact Or.inl (List.drop_subset _ _ h)
          · exact Or.inr h
      · rw [if_neg hp] at hc
        rcases List.mem_cons.mp hc with hc | hc
        · exact Or.inl (hc ▸ List.mem_cons_self _ _)
        · rcases ih _ c hc with h | h
          · exact Or.inl (List.mem_cons_of_mem _ h)
          · exact Or.inr h

theorem mem_pyReplace (pat rep s : List Char) (c : Char)
    (hc : c ∈ pyReplace pat rep s) : c ∈ s ∨ c ∈ rep :=
  mem_replaceSubFuel pat rep s.length s c hc

theorem mem_collapseCommasAux (s : List Char) :
    ∀ (st : CCState) (c : Char), c ∈ collapseCommasAux st s →
      c ∈ s ∨ c ∈ ccFlush st ∨ c = ',' ∨ c = ' ' := by
  induction s with
  | nil =>
    intro st c hc
    simp only [collapseCommasAux] at hc
    exact Or.inr (Or.inl hc)
  | cons x rest ih =>
    intro st c hc
    cases st with
    | norm =>
      simp only [collapseCommasAux] at hc
      by_cases hx : x = ','
      · rw [if_pos hx] at hc
        rcases ih _ c hc with h | h | h
        · exact Or.inl (List.mem_cons_of_mem _ h)
        · rcases List.mem_cons.mp h with h2 | h2
          · exact Or.inr (Or.inr (Or.inl h2))
          · simp at h2
        · exact Or.inr (Or.inr h)
      · rw [if_neg hx] at hc
        rcases List.mem_cons.mp hc with hc | hc
        · exact Or.inl (hc ▸ List.mem_cons_self _ _)
        · rcases ih _ c hc with h | h | h
          · exact Or.inl (List.mem_cons_of_mem _ h)
          · simp [ccFlush] at h
          · exact Or.inr (Or.inr h)
    | afterComma buf =>
      simp only [collapseCommasAux] at hc
      by_cases hx : x = ','
      · rw [if_pos hx] at hc
        rcases List.mem_cons.mp hc with hc | hc
        · exact Or.inr (Or.inr (Or.inl hc))
        · rcases List.mem_cons.mp hc with hc | hc
          · exact Or.inr (Or.inr (Or.inr hc))
          · rcases ih _ c hc with h | h | h
            · exact Or.inl (List.mem_cons_of_mem _ h)
            · simp [ccFlush] at h
            · exact Or.inr (Or.inr h)
      · rw [if_neg hx] at hc
        by_cases hsp : isSpaceChar x = true
        · rw [if_pos hsp] at hc
          rcases ih _ c hc with h | h | h
          · exact Or.inl (List.mem_cons_of_mem _ h)
          · rcases List.mem_cons.mp h with h2 | h2
            · exact Or.inr (Or.inr (Or.inl h2))
            · rcases List.mem_append.mp h2 with h3 | h3
              · exact Or.inr (Or.inl (List.mem_cons_of_mem _ h3))
              · have : c = x := by simpa using h3
                exact Or.inl (this ▸ List.mem_cons_self _ _)
          · exact Or.inr (Or.inr h)
        · rw [if_neg hsp] at hc
          rcases List.mem_append.mp hc with hc | hc
          · rcases List.mem_cons.mp hc with h2 | h2
            · exact Or.inr (Or.inr (Or.inl h2))
            · exact Or.inr (Or.inl (List.mem_cons_of_mem _ h2))
          · rcases List.mem_cons.mp hc with h2 | h2
            · exact Or.inl (h2 ▸ List.mem_cons_self _ _)
            · rcases ih _ c h2 with h | h | h
              · exact Or.inl (List.mem_cons_of_mem _ h)
              · simp [ccFlush] at h
              · exact Or.inr (Or.inr h)
    | run =>
      simp only [collapseCommasAux] at hc
      by_cases hx : x = ','
      · rw [if_pos hx] at hc
        rcases ih _ c hc with h | h | h
        · exact Or.inl (List.mem_cons_of_mem _ h)
        · simp [ccFlush] at h
        · exact Or.inr (Or.inr h)
      · rw [if_neg hx] at hc
        rcases List.mem_cons.mp hc with hc | hc
        · exact Or.inl (hc ▸ List.mem_cons_self _ _)
        · rcases ih _ c hc with h | h | h
          · exact Or.inl (List.mem_cons_of_mem _ h)
          · simp [ccFlush] at h
          · exact Or.inr (Or.inr h)

theorem mem_collapseCommas (s : List Char) (c : Char)
    (hc : c ∈ collapseCommas s) : c ∈ s ∨ c = ',' ∨ c = ' ' := by
  rcases mem_collapseCommasAux s .norm c hc with h | h | h
  · exact Or.inl h
  · simp [ccFlush] at h
  · exact Or.inr h

theorem mem_dotsFlush (n : ℕ) (c : Char) (hc : c ∈ dotsFlush n) : c = '.' := by
  unfold dotsFlush at hc
  by_cases h4 : 4 ≤ n
  · simp only [h4, if_pos rfl] at hc
    simpa using hc
  · simp only [h4, if_false] at hc
    exact List.eq_of_mem_replicate hc

theorem mem_capDotsAux (s : List Char) :
    ∀ (n : ℕ) (c : Char), c ∈ capDotsAux n s → c ∈ s ∨ c = '.' := by
  induction s with
  | nil =>
    intro n c hc
    simp only [capDotsAux] at hc
    exact Or.inr (mem_dotsFlush n c hc)
  | cons x rest ih =>
    intro n c hc
    simp only [capDotsAux] at hc
    by_cases hx : x = '.'
    · simp only [hx, if_pos rfl] at hc
      rcases ih _ c hc with h | h
      · exact Or.inl (List.mem_cons_of_mem _ h)
      · exact Or.inr h
    · simp only [hx, if_false, List.mem_append, List.mem_cons] at hc
      rcases hc with hc | hc | hc
      · exact Or.inr (mem_dotsFlush n c hc)
      · exact Or.inl (hc ▸ List.mem_cons_self _ _)
      · rcases ih _ c hc with h | h
        · exact Or.inl (List.mem_cons_of_mem _ h)
        · exact Or.inr h

theorem mem_capDots (s : List Char) (c : Char) (hc : c ∈ capDots s) :
    c ∈ s ∨ c = '.' :=
  mem_capDotsAux s 0 c hc

theorem mem_pausePass (lo : ℕ) (x : List Char) (c : Char)
    (hc : c ∈ pausePass lo x) : c ∈ x ∨ c = '.' ∨ c = ' ' := by
  unfold pausePass at hc
  by_cases hdot : '.' ∈ x
  · rw [if_pos hdot] at hc
    by_cases hwin : lo ≤ (splitWs (x.takeWhile (fun c => c != '.'))).length
        ∧ (splitWs (x.takeWhile (fun c => c != '.'))).length ≤ 14
    · rw [if_pos hwin] at hc
      simp only [List.mem_append, List.mem_cons] at hc
      rcases hc with hc | hc | hc | hc | hc | hc
      · exact Or.inl ((List.takeWhile_prefix _).sublist.subset hc)
      · exact Or.inr (Or.inl hc)
      · exact Or.inr (Or.inl hc)
      · exact Or.inr (Or.inl hc)
      · exact Or.inr (Or.inr hc)
      · exact Or.inl (List.drop_subset _ _ (mem_stripWs _ _ hc))
    · rw [if_neg hwin] at hc
      exact Or.inl hc
  · rw [if_neg hdot] at hc
    exact Or.inl hc

/-! ### No output of the dot-capping stage contains four consecutive dots -/

/-- Four consecutive dots, the pattern the normalizer caps. -/
def fourDots : List Char := ['.', '.', '.', '.']

theorem prefix_append_split (l a b : List Char) (h : l <+: a ++ b) :
    l <+: a ∨ ∃ l₂, l = a ++ l₂ ∧ l₂ <+: b := by
  induction a generalizing l with
  | nil => exact Or.inr ⟨l, rfl, by simpa using h⟩
  | cons x a' ih =>
    rcases List.prefix_cons_iff.mp h with h0 | ⟨t, rfl, ht⟩
    · exact Or.inl (by subst h0; exact List.nil_prefix)
    · rcases ih t ht with h1 | ⟨l₂, rfl, h2⟩
      · exact Or.inl (List.cons_prefix_cons.mpr ⟨rfl, h1⟩)
      · exact Or.inr ⟨l₂, by simp, h2⟩

theorem infix_append_split (l a b : List Char) (h : l <:+: a ++ b) :
    l <:+: a ∨ l <:+: b
    ∨ ∃ l₁ l₂, l = l₁ ++ l₂ ∧ l₁ ≠ [] ∧ l₂ ≠ [] ∧ l₁ <:+ a ∧ l₂ <+: b := by
  induction a generalizing l with
  | nil => exact Or.inr (Or.inl (by simpa using h))
  | cons x a' ih =>
    rcases List.infix_cons_iff.mp h with h0 | h0
    · rcases prefix_append_split l (x :: a') b (by simpa using h0) with h1 | ⟨l₂, rfl, h2⟩
      · exact Or.inl h1.isInfix
      · by_cases hl2 : l₂ = []
        · subst hl2
          exact Or.inl (by simp)
        · exact Or.inr (Or.inr ⟨x :: a', l₂, rfl, by simp, hl2, List.suffix_rfl, h2⟩)
    · rcases ih l h0 with h1 | h1 | ⟨l₁, l₂, rfl, hn1, hn2, hs, hp⟩
      · exact Or.inl (h1.trans (List.suffix_cons x a').isInfix)
      · exact Or.inr (Or.inl h1)
      · exact Or.inr (Or.inr ⟨l₁, l₂, rfl, hn1, hn2, hs.trans (List.suffix_cons x a'), hp⟩)

theorem noFour_append (a b : List Char)
    (ha : ¬ fourDots <:+: a) (hb : ¬ fourDots <:+: b)
    (hside : a.getLast? ≠ some '.' ∨ b.head? ≠ some '.') :
    ¬ fourDots <:+: a ++ b := by
  intro h
  rcases infix_append_split fourDots a b h with h1 | h1 | ⟨l₁, l₂, heq, hn1, hn2, hs, hp⟩
  · exact ha h1
  · exact hb h1
  · have hdots : ∀ x ∈ fourDots, x = '.' := by decide
    have hl1 : ∀ x ∈ l₁, x = '.' := fun x hx => hdots x (heq ▸ List.mem_append_left _ hx)
    have hl2 : ∀ x ∈ l₂, x = '.' := fun x hx => hdots x (heq ▸ List.mem_append_right _ hx)
    have hA : a.getLast? = some '.' := by
      obtain ⟨pre, hpre⟩ := hs
      rw [← hpre, List.getLast?_append, List.getLast?_eq_getLast l₁ hn1]
      simp [hl1 _ (List.getLast_mem hn1)]
    have hB : b.head? = some '.' := by
      obtain ⟨post, hpost⟩ := hp
      cases l₂ with
      | nil => exact absurd rfl hn2
      | cons z zs =>
        rw [← hpost]
        simp [hl2 z (List.mem_cons_self _ _)]
    rcases hside with h2 | h2
    · exact h2 hA
    · exact h2 hB

theorem noFour_short (a : List Char) (h : a.length ≤ 3) : ¬ fourDots <:+: a := by
  intro hin
  have := hin.length_le
  rw [show fourDots.length = 4 from rfl] at this
  omega

theorem dotsFlush_length_le (n : ℕ) : (dotsFlush n).length ≤ 3 := by
  unfold dotsFlush
  split
  · simp
  · simp only [List.length_replicate]
    omega

theorem noFour_cons (c : Char) (out : List Char) (hc : c ≠ '.')
    (hout : ¬ fourDots <:+: out) : ¬ fourDots <:+: c :: out := by
  intro h
  rcases List.infix_cons_iff.mp h with h0 | h0
  · have h0' : ('.' :: ['.', '.', '.'] : List Char) <+: c :: out := h0
    exact hc (List.cons_prefix_cons.mp h0').1.symm
  · exact hout h0

theorem noFour_capDotsAux (s : List Char) : ∀ n, ¬ fourDots <:+: capDotsAux n s := by
  induction s with
  | nil =>
    intro n
    exact noFour_short _ (dotsFlush_length_le n)
  | cons x rest ih =>
    intro n
    by_cases hx : x = '.'
    · simp only [capDotsAux]
      rw [if_pos hx]
      exact ih (n + 1)
    · simp only [capDotsAux]
      rw [if_neg hx]
      exact noFour_append _ _ (noFour_short _ (dotsFlush_length_le n))
        (noFour_cons x _ hx (ih 0)) (Or.inr (by simp [hx]))

theorem noFour_capDots (s : List Char) : ¬ fourDots <:+: capDots s :=
  noFour_capDotsAux s 0

theorem noFour_pausePass (lo : ℕ) (x : List Char) (hx : ¬ fourDots <:+: x) :
    ¬ fourDots <:+: pausePass lo x := by
  unfold pausePass
  by_cases hdot : '.' ∈ x
  · rw [if_pos hdot]
    by_cases hwin : lo ≤ (splitWs (x.takeWhile (fun c => c != '.'))).length
        ∧ (splitWs (x.takeWhile (fun c => c != '.'))).length ≤ 14
    · rw [if_pos hwin]
      have hfirst : ∀ c ∈ x.takeWhile (fun c => c != '.'), c ≠ '.' := by
        intro c hcm
        have := List.mem_takeWhile_imp hcm
        simpa using this
      have hnf : ¬ fourDots <:+: x.takeWhile (fun c => c != '.') := by
        intro hin
        exact hfirst '.' (hin.sublist.subset (by decide)) rfl
      have hstrip : ¬ fourDots <:+:
          stripWs (x.drop ((x.takeWhile (fun c => c != '.')).length + 1)) := by
        intro hin
        exact hx (hin.trans ((stripWs_infix_self _).trans (List.drop_suffix _ _).isInfix))
      have hlast : (x.takeWhile (fun c => c != '.')).getLast? ≠ some '.' := by
        intro hl
        cases hfw : x.takeWhile (fun c => c != '.') with
        | nil => rw [hfw] at hl; simp at hl
        | cons y ys =>
          rw [hfw] at hl
          rw [List.getLast?_eq_getLast (y :: ys) (by simp)] at hl
          have hmem : (y :: ys).getLast (by simp) ∈ y :: ys := List.getLast_mem _
          rw [Option.some.injEq] at hl
          refine hfirst _ ?_ hl
          rw [hfw]
          exact hmem
      have hleft : ¬ fourDots <:+: (x.takeWhile (fun c => c != '.') ++ ['.', '.', '.']) :=
        noFour_append _ _ hnf (noFour_short _ (by simp)) (Or.inl hlast)
      have hb : ¬ fourDots <:+:
          (' ' :: stripWs (x.drop ((x.takeWhile (fun c => c != '.')).length + 1))) :=
        noFour_cons _ _ (by decide) hstrip
      have heq : x.takeWhile (fun c => c != '.')
            ++ '.' :: '.' :: '.' :: ' '
            :: stripWs (x.drop ((x.takeWhile (fun c => c != '.')).length + 1))
          = (x.takeWhile (fun c => c != '.') ++ ['.', '.', '.'])
            ++ (' ' :: stripWs (x.drop ((x.takeWhile (fun c => c != '.')).length + 1))) := by
        simp
      rw [heq]
      exact noFour_append _ _ hleft hb (Or.inr (by simp))
    · rw [if_neg hwin]
      exact hx
  · rw [if_neg hdot]
    exact hx

/-! ### Chasing characters through the normalizer pipelines -/

theorem sgPre_no_semi (t : List Char) : ';' ∉ sgPre t := by
  intro hc
  unfold sgPre at hc
  rcases mem_capDots _ _ hc with h | h
  swap
  · exact absurd h (by decide)
  rcases mem_collapseCommas _ _ h with h | h | h
  rotate_left
  · exact absurd h (by decide)
  · exact absurd h (by decide)
  have h := List.mem_of_mem_filter h
  rcases mem_pyReplace _ _ _ _ h with h | h
  swap
  · exact absurd h (by decide)
  rcases mem_pyReplace _ _ _ _ h with h | h
  swap
  · exact absurd h (by decide)
  rcases mem_pyReplace _ _ _ _ h with h | h
  swap
  · exact absurd h (by decide)
  rcases mem_replaceChar _ _ _ _ h with h | h
  · exact absurd h (by decide)
  exact replaceChar_not_mem ';' ',' (by decide) _ h

theorem sgPre_no_colon (t : List Char) : ':' ∉ sgPre t := by
  intro hc
  unfold sgPre at hc
  rcases mem_capDots _ _ hc with h | h
  swap
  · exact absurd h (by decide)
  rcases mem_collapseCommas _ _ h with h | h | h
  rotate_left
  · exact absurd h (by decide)
  · exact absurd h (by decide)
  have h := List.mem_of_mem_filter h
  rcases mem_pyReplace _ _ _ _ h with h | h
  swap
  · exact absurd h (by decide)
  rcases mem_pyReplace _ _ _ _ h with h | h
  swap
  · exact absurd h (by decide)
  rcases mem_pyReplace _ _ _ _ h with h | h
  swap
  · exact absurd h (by decide)
  exact replaceChar_not_mem ':' ',' (by decide) _ h

theorem ffPre_no_semi (t : List Char) : ';' ∉ ffPre t := by
  intro hc
  unfold ffPre at hc
  rcases mem_capDots _ _ hc with h | h
  swap
  · exact absurd h (by decide)
  rcases mem_collapseCommas _ _ h with h | h | h
  rotate_left
  · exact absurd h (by decide)
  · exact absurd h (by decide)
  rcases mem_pyReplace _ _ _ _ h with h | h
  swap
  · exact absurd h (by decide)
  rcases mem_pyReplace _ _ _ _ h with h | h
  swap
  · exact absurd h (by decide)
  rcases mem_replaceChar _ _ _ _ h with h | h
  · exact absurd h (by decide)
  exact replaceChar_not_mem ';' ',' (by decide) _ h

theorem ffPre_no_colon (t : List Char) : ':' ∉ ffPre t := by
  intro hc
  unfold ffPre at hc
  rcases mem_capDots _ _ hc with h | h
  swap
  · exact absurd h (by decide)
  rcases mem_collapseCommas _ _ h with h | h | h
  rotate_left
  · exact absurd h (by decide)
  · exact absurd h (by decide)
  rcases mem_pyReplace _ _ _ _ h with h | h
  swap
  · exact absurd h (by decide)
  rcases mem_pyReplace _ _ _ _ h with h | h
  swap
  · exact absurd h (by decide)
  exact replaceChar_not_mem ':' ',' (by decide) _ h

theorem sgPre_space (t : List Char) (c : Char) (hc : c ∈ sgPre t)
    (hsp : isSpaceChar c = true) : c = ' ' := by
  unfold sgPre at hc
  rcases mem_capDots _ _ hc with h | h
  swap
  · rw [h] at hsp
    simp [isSpaceChar] at hsp
  rcases mem_collapseCommas _ _ h with h | h | h
  rotate_left
  · rw [h] at hsp
    simp [isSpaceChar] at hsp
  · exact h
  have h := List.mem_of_mem_filter h
  rcases mem_pyReplace _ _ _ _ h with h | h
  swap
  · rcases List.mem_cons.mp h with h2 | h2
    · rw [h2] at hsp
      simp [isSpaceChar] at hsp
    · simpa using h2
  rcases mem_pyReplace _ _ _ _ h with h | h
  swap
  · rcases List.mem_cons.mp h with h2 | h2
    · rw [h2] at hsp
      simp [isSpaceChar] at hsp
    · simpa using h2
  rcases mem_pyReplace _ _ _ _ h with h | h
  swap
  · rcases List.mem_cons.mp h with h2 | h2
    · rw [h2] at hsp
      simp [isSpaceChar] at hsp
    · simpa using h2
  rcases mem_replaceChar _ _ _ _ h with h | h
  · rw [h] at hsp
    simp [isSpaceChar] at hsp
  rcases mem_replaceChar _ _ _ _ h with h | h
  · rw [h] at hsp
    simp [isSpaceChar] at hsp
  rcases mem_collapseWsAux _ _ _ (mem_stripWs _ _ h) with h | ⟨_, h2⟩
  · exact h
  · rw [hsp] at h2
    simp at h2

theorem ffPre_space (t : List Char) (c : Char) (hc : c ∈ ffPre t)
    (hsp : isSpaceChar c = true) : c = ' ' := by
  unfold ffPre at hc
  rcases mem_capDots _ _ hc with h | h
  swap
  · rw [h] at hsp
    simp [isSpaceChar] at hsp
  rcases mem_collapseCommas _ _ h with h | h | h
  rotate_left
  · rw [h] at hsp
    simp [isSpaceChar] at hsp
  · exact h
  rcases mem_pyReplace _ _ _ _ h with h | h
  swap
  · rcases List.mem_cons.mp h with h2 | h2
    · rw [h2] at hsp
      simp [isSpaceChar] at hsp
    · simpa using h2
  rcases mem_pyReplace _ _ _ _ h with h | h
  swap
  · rcases List.mem_cons.mp h with h2 | h2
    · rw [h2] at hsp
      simp [isSpaceChar] at hsp
    · simpa using h2
  rcases mem_replaceChar _ _ _ _ h with h | h
  · rw [h] at hsp
    simp [isSpaceChar] at hsp
  rcases mem_replaceChar _ _ _ _ h with h | h
  · rw [h] at hsp
    simp [isSpaceChar] at hsp
  rcases mem_collapseWsAux _ _ _ (mem_stripWs _ _ h) with h | ⟨_, h2⟩
  · exact h
  · rw [hsp] at h2
    simp at h2

/-! ### Claim C7 -/

/-- Counterexample to C7 as stated: on a 5-word opening clause followed by a
period, `scriptgenrator`'s normalizer inserts the soft pause but
`fetchFact`'s does not — its window starts at 6 words, not 5 — so the claimed
5–14 window does not hold for every implementation. -/
theorem c7_counterexample :
    humanize_ff ("one two three four five. x".toList)
        = "one two three four five. x".toList
    ∧ humanize_sg ("one two three four five. x".toList)
        = "one two three four five... x".toList
    ∧ humanize_ff ("one two three four five. x".toList)
        ≠ humanize_sg ("one two three four five. x".toList) := by
  refine ⟨?_, ?_, ?_⟩ <;> decide

/-- Claim C7 (amended): both normalizers collapse whitespace runs (every
whitespace character surviving into the output is a plain space), replace
`;` and `:` by `,` (neither occurs in any output), collapse repeated commas
and cap dot runs at three (no output contains four consecutive dots), and
insert the opening-hook pause `'...'` at the first period exactly when the
opening clause has between `lo` and 14 words — with `lo = 5` for
`scriptgenrator`'s implementation and `lo = 6` for `fetchFact`'s. -/
theorem c7_tts_normalizers (t : List Char) :
    humanize_sg t = pausePass 5 (sgPre t)
    ∧ humanize_ff t = pausePass 6 (ffPre t)
    ∧ ';' ∉ humanize_sg t ∧ ':' ∉ humanize_sg t
    ∧ ';' ∉ humanize_ff t ∧ ':' ∉ humanize_ff t
    ∧ (∀ c ∈ humanize_sg t, isSpaceChar c = true → c = ' ')
    ∧ (∀ c ∈ humanize_ff t, isSpaceChar c = true → c = ' ')
    ∧ ¬ fourDots <:+: humanize_sg t
    ∧ ¬ fourDots <:+: humanize_ff t := by
  refine ⟨rfl, rfl, ?_, ?_, ?_, ?_, ?_, ?_, ?_, ?_⟩
  · intro hc
    rcases mem_pausePass _ _ _ hc with h | h | h
    · exact sgPre_no_semi t h
    · exact absurd h (by decide)
    · exact absurd h (by decide)
  · intro hc
    rcases mem_pausePass _ _ _ hc with h | h | h
    · exact sgPre_no_colon t h
    · exact absurd h (by decide)
    · exact absurd h (by decide)
  · intro hc
    rcases mem_pausePass _ _ _ hc with h | h | h
    · exact ffPre_no_semi t h
    · exact absurd h (by decide)
    · exact absurd h (by decide)
  · intro hc
    rcases mem_pausePass _ _ _ hc with h | h | h
    · exact ffPre_no_colon t h
    · exact absurd h (by decide)
    · exact absurd h (by decide)
  · intro c hc hsp
    rcases mem_pausePass _ _ _ hc with h | h | h
    · exact sgPre_space t c h hsp
    · rw [h] at hsp
      simp [isSpaceChar] at hsp
    · exact h
  · intro c hc hsp
    rcases mem_pausePass _ _ _ hc with h | h | h
    · exact ffPre_space t c h hsp
    · rw [h] at hsp
      simp [isSpaceChar] at hsp
    · exact h
  · exact noFour_pausePass 5 (sgPre t) (noFour_capDots _)
  · exact noFour_pausePass 6 (ffPre t) (noFour_capDots _)

/-- Witness for C7 at a concrete input exercising the `;`/`:`/dots rules. -/
theorem c7_tts_normalizers_witness :
    (';' ∉ humanize_sg ("Listen up; here: wow..... yes".toList))
    ∧ (':' ∉ humanize_ff ("Listen up; here: wow..... yes".toList))
    ∧ ¬ fourDots <:+: humanize_sg ("Listen up; here: wow..... yes".toList)
    ∧ ¬ fourDots <:+: humanize_ff ("Listen up; here: wow..... yes".toList) := by
  have h := c7_tts_normalizers ("Listen up; here: wow..... yes".toList)
  exact ⟨h.2.2.1, h.2.2.2.2.2.1, h.2.2.2.2.2.2.2.2.1, h.2.2.2.2.2.2.2.2.2⟩

/-! ## The timestamp file format
(`src/reelrungen2/scriptgenrator.py` `save_timestamps`, lines 302–314;
`src/ReelRun/whisper_gen.py` lines 20–22; the parse loop of
`src/ReelRun/make_reel.py`, lines 129–134) -/

/-- The decimal digit character for `d < 10`. -/
def digitChar (d : ℕ) : Char := Char.ofNat (48 + d)

/-- The value of a decimal digit character. -/
def charVal (c : Char) : ℕ := c.toNat - 48

/-- Little-endian base-10 digits of `n` (empty for 0); fuel bounded below by
`n` suffices since `n / 10 < n` for positive `n`. -/
def natDigitsF : ℕ → ℕ → List ℕ
  | 0, _ => []
  | fuel + 1, n => if n = 0 then [] else n % 10 :: natDigitsF fuel (n / 10)

/-- The decimal numeral of `n` (big-endian, `"0"` for 0). -/
def natToChars (n : ℕ) : List Char :=
  if n = 0 then ['0'] else ((natDigitsF n n).map digitChar).reverse

/-- Value of a little-endian digit list. -/
def natOfDigits (l : List ℕ) : ℕ := l.foldr (fun d acc => d + 10 * acc) 0

/-- Value of a big-endian digit character list. -/
def parseNat (cs : List Char) : ℕ := cs.foldl (fun a c => 10 * a + charVal c) 0

/-- Python's `str()` of a float, in the exact-rational model.  Every Python
float is a dyadic rational, whose exact value has a terminating decimal
expansion, and `repr` prints the (shortest) decimal that reparses to the same
value: the exact expansion with trailing fractional zeros elided but at least
one fractional digit kept (`0.4`, `5.0`, `1.13`).  The decimal exponent
`k := q.den` digits suffice whenever `q.den ∣ 10 ^ q.den`, i.e. whenever the
denominator has only the prime factors 2 and 5; other rationals correspond to
no float and their rendering is meaningless. -/
def renderDec (q : ℚ) : List Char :=
  let k := q.den
  let N : ℕ := (|q| * (10 : ℚ) ^ k).num.toNat
  let ds := natDigitsF (N % 10 ^ k) (N % 10 ^ k)
  let fracLE := ds ++ List.replicate (k - ds.length) 0
  let fracStripped := fracLE.dropWhile (fun d => d == 0)
  let frac := if fracStripped.isEmpty then ['0']
    else (fracStripped.map digitChar).reverse
  (if q < 0 then ['-'] else []) ++ natToChars (N / 10 ^ k) ++ '.' :: frac

/-- `f"{x:.2f}"` as used by `whisper_gen.py`: the value rounded to
centiseconds (tie behaviour as in `round2`), with exactly two fractional
digits always printed. -/
def render2f (q : ℚ) : List Char :=
  let n : ℤ := round (q * 100)
  let m := n.natAbs
  (if n < 0 then ['-'] else [])
    ++ natToChars (m / 100) ++ '.' :: digitChar (m / 10 % 10) :: [digitChar (m % 10)]

/-- `scriptgenrator.save_timestamps` (lines 302–314): one line
`f"{ts['start']}|{ts['end']}|{ts['word']}\n"` per record; the floats are
rendered by Python `str`, modelled by `renderDec`. -/
def save_timestamps (timestamps : List WordTimestamp) : List Char :=
  (timestamps.map (fun ts =>
    renderDec ts.start ++ '|' :: renderDec ts.endT ++ '|' :: ts.word ++ ['\n'])).flatten

/-- `whisper_gen.py` lines 20–22: `f.write(f"{s:.2f}|{e:.2f}|{w}\n")` for
each `(start, end, word)` triple produced by the transcription. -/
def whisperWrite (words_data : List (ℚ × ℚ × List Char)) : List Char :=
  (words_data.map (fun r =>
    render2f r.1 ++ '|' :: render2f r.2.1 ++ '|' :: r.2.2 ++ ['\n'])).flatten

/-- Python's `str.splitlines` line-break characters. -/
def isLineBreak (c : Char) : Bool :=
  c = '\n' || c = '\x0d' || c = '\x0b' || c = '\x0c' ||
  c = '\x1c' || c = '\x1d' || c = '\x1e' || c = '\x85' ||
  c = '\u2028' || c = '\u2029'

/-- `f.read().splitlines()` (`make_reel.py` line 130), modelled as splitting
on `'\n'` and dropping the trailing empty chunk.  Python also breaks lines at
the other `isLineBreak` characters; the model is faithful for contents whose
only line-break characters are the `'\n'` terminators the writers emit,
which holds whenever no word contains a line-break character — the theorems
below hypothesise exactly that. -/
def linesOf (content : List Char) : List (List Char) :=
  let l := splitP (fun c => c == '\n') content
  if l.getLast? = some [] then l.dropLast else l

/-- The numeric part of Python's `float(s)` for plain decimal numerals
(all the strings the renderers above produce): one or more digits, optionally
followed by a dot and one or more digits. -/
def parseDecAux (s : List Char) : Option ℚ :=
  let intDs := s.takeWhile Char.isDigit
  let rest := s.dropWhile Char.isDigit
  if intDs.isEmpty then none
  else if rest.isEmpty then some (parseNat intDs : ℚ)
  else if rest.head? = some '.' then
    let fracDs := rest.tail
    if fracDs.isEmpty then none
    else if fracDs.all Char.isDigit then
      some ((parseNat intDs : ℚ) + (parseNat fracDs : ℚ) / 10 ^ fracDs.length)
    else none
  else none

/-- Python's `float(s)` on the decimal numerals at hand, with an optional
leading minus sign; `none` models the `ValueError` on anything else. -/
def parseDec (s : List Char) : Option ℚ :=
  if s.head? = some '-' then (parseDecAux s.tail).map (fun q => -q)
  else parseDecAux s

/-- The parse loop of `make_reel.py` lines 132–134: `s, e, w =
line.split("|")` — any other field count raises — then `float(s)`,
`float(e)`, and the third field as the word. -/
def parseLine (line : List Char) : Option WordTimestamp :=
  match splitP (fun c => c == '|') line with
  | [s, e, w] =>
    match parseDec s, parseDec e with
    | some a, some b => some { start := a, endT := b, word := w }
    | _, _ => none
  | _ => none

/-- Parsing the whole timestamp file, line by line; any bad line fails the
parse (the Python loop raises). -/
def parseFile (content : List Char) : Option (List WordTimestamp) :=
  (linesOf content).mapM parseLine

/-- A numeral with exactly two decimal places: one or more digits, a dot,
then exactly two digits. -/
def isTwoDecNumeral (cs : List Char) : Bool :=
  match cs.reverse with
  | d2 :: d1 :: '.' :: r => d2.isDigit && d1.isDigit && !r.isEmpty && r.all Char.isDigit
  | _ => false

/-- The claimed line shape of C6: at least three pipe-separated fields, the
first two being numerals with exactly two decimal places. -/
def twoDecLine (line : List Char) : Bool :=
  match splitP (fun c => c == '|') line with
  | s :: e :: _ :: _ => isTwoDecNumeral s && isTwoDecNumeral e
  | _ => false

/-! ### Digits and numerals -/

theorem natDigitsF_lt (fuel : ℕ) : ∀ n, ∀ d ∈ natDigitsF fuel n, d < 10 := by
  induction fuel with
  | zero => intro n d hd; simp [natDigitsF] at hd
  | succ fuel ih =>
    intro n d hd
    simp only [natDigitsF] at hd
    by_cases hn : n = 0
    · rw [if_pos hn] at hd
      simp at hd
    · rw [if_neg hn] at hd
      rcases List.mem_cons.mp hd with h | h
      · omega
      · exact ih _ d h

theorem natOfDigits_natDigitsF (fuel : ℕ) : ∀ n, n ≤ fuel →
    natOfDigits (natDigitsF fuel n) = n := by
  induction fuel with
  | zero =>
    intro n hn
    interval_cases n
    rfl
  | succ fuel ih =>
    intro n hn
    simp only [natDigitsF]
    by_cases hn0 : n = 0
    · rw [if_pos hn0, hn0]
      rfl
    · rw [if_neg hn0]
      unfold natOfDigits
      rw [List.foldr_cons]
      have hrec : natOfDigits (natDigitsF fuel (n / 10)) = n / 10 :=
        ih _ (by omega)
      unfold natOfDigits at hrec
      rw [hrec]
      omega

theorem natDigitsF_length_le (fuel : ℕ) : ∀ n k, n < 10 ^ k →
    (natDigitsF fuel n).length ≤ k := by
  induction fuel with
  | zero => intro n k _; simp [natDigitsF]
  | succ fuel ih =>
    intro n k hn
    simp only [natDigitsF]
    by_cases hn0 : n = 0
    · rw [if_pos hn0]
      simp
    · rw [if_neg hn0]
      have hk : k ≠ 0 := by
        intro h
        rw [h, pow_zero] at hn
        omega
      obtain ⟨k', rfl⟩ : ∃ k', k = k' + 1 := ⟨k - 1, by omega⟩
      have : n / 10 < 10 ^ k' := by
        rw [Nat.div_lt_iff_lt_mul (by norm_num)]
        calc n < 10 ^ (k' + 1) := hn
        _ = 10 ^ k' * 10 := by ring
      simpa using ih (n / 10) k' this

theorem charVal_digitChar : ∀ d, d < 10 → charVal (digitChar d) = d := by decide

theorem digitChar_isDigit : ∀ d, d < 10 → (digitChar d).isDigit = true := by decide

theorem digitChar_props : ∀ d, d < 10 →
    digitChar d ≠ '|' ∧ digitChar d ≠ '\n' ∧ digitChar d ≠ '-' ∧ digitChar d ≠ '.' := by
  decide

theorem foldr_map_digitChar (l : List ℕ) (h : ∀ d ∈ l, d < 10) :
    List.foldr (fun x y => 10 * y + charVal x) 0 (l.map digitChar)
      = natOfDigits l := by
  induction l with
  | nil => rfl
  | cons d l ih =>
    simp only [List.map_cons, List.foldr_cons, natOfDigits]
    rw [ih (fun x hx => h x (List.mem_cons_of_mem _ hx)),
      charVal_digitChar d (h d (List.mem_cons_self _ _))]
    unfold natOfDigits
    omega

theorem parseNat_reverse_map (l : List ℕ) (h : ∀ d ∈ l, d < 10) :
    parseNat ((l.map digitChar).reverse) = natOfDigits l := by
  unfold parseNat
  rw [List.foldl_reverse]
  exact foldr_map_digitChar l h

theorem parseNat_natToChars (n : ℕ) : parseNat (natToChars n) = n := by
  unfold natToChars
  by_cases hn : n = 0
  · rw [if_pos hn, hn]
    rfl
  · rw [if_neg hn]
    rw [parseNat_reverse_map _ (natDigitsF_lt n n)]
    exact natOfDigits_natDigitsF n n le_rfl

theorem natToChars_ne_nil (n : ℕ) : natToChars n ≠ [] := by
  unfold natToChars
  by_cases hn : n = 0
  · rw [if_pos hn]
    simp
  · rw [if_neg hn]
    intro h
    rw [List.reverse_eq_nil_iff, List.map_eq_nil_iff] at h
    have := natOfDigits_natDigitsF n n le_rfl
    rw [h] at this
    exact hn (by simpa [natOfDigits] using this.symm)

theorem natToChars_isDigit (n : ℕ) (c : Char) (hc : c ∈ natToChars n) :
    c.isDigit = true := by
  unfold natToChars at hc
  by_cases hn : n = 0
  · rw [if_pos hn] at hc
    simp only [List.mem_singleton] at hc
    subst hc
    decide
  · rw [if_neg hn] at hc
    rw [List.mem_reverse, List.mem_map] at hc
    obtain ⟨d, hd, rfl⟩ := hc
    exact digitChar_isDigit d (natDigitsF_lt n n d hd)

theorem natToChars_props (n : ℕ) (c : Char) (hc : c ∈ natToChars n) :
    c ≠ '|' ∧ c ≠ '\n' ∧ c ≠ '-' ∧ c ≠ '.' := by
  have := natToChars_isDigit n c hc
  refine ⟨?_, ?_, ?_, ?_⟩ <;> (intro h; subst h; simp [Char.isDigit] at this)

theorem fracStripped_lt (m k : ℕ) :
    ∀ d ∈ List.dropWhile (fun d => d == 0)
      (natDigitsF m m ++ List.replicate (k - (natDigitsF m m).length) 0), d < 10 := by
  intro d hd
  have hsub := (List.dropWhile_suffix (fun d => d == 0)).sublist.subset hd
  rcases List.mem_append.mp hsub with h2 | h2
  · exact natDigitsF_lt _ _ d h2
  · have := List.eq_of_mem_replicate h2
    omega

theorem mem_renderDec_rest (L : List ℕ) (hlt : ∀ d ∈ L, d < 10) (c : Char)
    (hc : c ∈ '.' :: (if L.isEmpty then ['0'] else (L.map digitChar).reverse)) :
    c = '.' ∨ c.isDigit = true := by
  rcases List.mem_cons.mp hc with h | h
  · exact Or.inl h
  · split at h
    · simp only [List.mem_singleton] at h
      subst h
      exact Or.inr (by decide)
    · rw [List.mem_reverse, List.mem_map] at h
      obtain ⟨d, hd, rfl⟩ := h
      exact Or.inr (digitChar_isDigit d (hlt d hd))

/-- Provenance of the characters of `renderDec`. -/
theorem mem_renderDec (q : ℚ) (c : Char) (hc : c ∈ renderDec q) :
    c = '-' ∨ c = '.' ∨ c.isDigit = true := by
  simp only [renderDec] at hc
  rcases List.mem_append.mp hc with h | h
  · rcases List.mem_append.mp h with h1 | h1
    · split at h1
      · exact Or.inl (by simpa using h1)
      · simp at h1
    · exact Or.inr (Or.inr (natToChars_isDigit _ _ h1))
  · rcases mem_renderDec_rest _ (fracStripped_lt _ _) c h with h2 | h2
    · exact Or.inr (Or.inl h2)
    · exact Or.inr (Or.inr h2)

theorem renderDec_no_pipe (q : ℚ) : '|' ∉ renderDec q := by
  intro h
  rcases mem_renderDec q _ h with h2 | h2 | h2 <;> simp [Char.isDigit] at h2

theorem renderDec_no_newline (q : ℚ) : '\n' ∉ renderDec q := by
  intro h
  rcases mem_renderDec q _ h with h2 | h2 | h2 <;> simp [Char.isDigit] at h2

/-- Provenance of the characters of `render2f`. -/
theorem mem_render2f (q : ℚ) (c : Char) (hc : c ∈ render2f q) :
    c = '-' ∨ c = '.' ∨ c.isDigit = true := by
  simp only [render2f] at hc
  rcases List.mem_append.mp hc with h | h
  · rcases List.mem_append.mp h with h1 | h1
    · split at h1
      · exact Or.inl (by simpa using h1)
      · simp at h1
    · exact Or.inr (Or.inr (natToChars_isDigit _ _ h1))
  · rcases List.mem_cons.mp h with h1 | h1
    · exact Or.inr (Or.inl h1)
    · rcases List.mem_cons.mp h1 with h2 | h2
      · subst h2
        exact Or.inr (Or.inr (digitChar_isDigit _ (by omega)))
      · simp only [List.mem_singleton] at h2
        subst h2
        exact Or.inr (Or.inr (digitChar_isDigit _ (by omega)))

theorem render2f_no_pipe (q : ℚ) : '|' ∉ render2f q := by
  intro h
  rcases mem_render2f q _ h with h2 | h2 | h2 <;> simp [Char.isDigit] at h2

theorem render2f_no_newline (q : ℚ) : '\n' ∉ render2f q := by
  intro h
  rcases mem_render2f q _ h with h2 | h2 | h2 <;> simp [Char.isDigit] at h2

/-! ### Splitting lemmas -/

theorem splitP_ne_nil (P : Char → Bool) (s : List Char) : splitP P s ≠ [] := by
  induction s with
  | nil => simp [splitP]
  | cons c rest ih =>
    simp only [splitP]
    by_cases h : P c = true
    · rw [if_pos h]
      simp
    · rw [if_neg h]
      cases hs : splitP P rest with
      | nil => exact absurd hs ih
      | cons t ts => simp [List.modifyHead]

theorem splitP_no_sep (P : Char → Bool) (a : List Char)
    (h : ∀ c ∈ a, P c = false) : splitP P a = [a] := by
  induction a with
  | nil => rfl
  | cons c rest ih =>
    simp only [splitP]
    rw [if_neg (by simp [h c (List.mem_cons_self _ _)])]
    rw [ih (fun x hx => h x (List.mem_cons_of_mem _ hx))]
    rfl

theorem splitP_append_sep (P : Char → Bool) (sep : Char) (a b : List Char)
    (ha : ∀ c ∈ a, P c = false) (hsep : P sep = true) :
    splitP P (a ++ sep :: b) = a :: splitP P b := by
  induction a with
  | nil =>
    simp only [List.nil_append, splitP]
    rw [if_pos hsep]
  | cons c rest ih =>
    simp only [List.cons_append, splitP]
    rw [if_neg (by simp [ha c (List.mem_cons_self _ _)])]
    simp only [List.append_eq]
    rw [ih (fun x hx => ha x (List.mem_cons_of_mem _ hx))]
    rfl

theorem linesOf_concat (rows : List (List Char)) (h : ∀ r ∈ rows, '\n' ∉ r) :
    linesOf ((rows.map (fun r => r ++ ['\n'])).flatten) = rows := by
  have hs : splitP (fun c => c == '\n') ((rows.map (fun r => r ++ ['\n'])).flatten)
      = rows ++ [[]] := by
    induction rows with
    | nil => rfl
    | cons r rows ih =>
      simp only [List.map_cons, List.flatten_cons, List.append_assoc,
        List.singleton_append]
      rw [splitP_append_sep (fun c => c == '\n') '\n' r _
        (fun c hc => by
          simp only [beq_eq_false_iff_ne, ne_eq]
          intro hcn
          exact h r (List.mem_cons_self _ _) (hcn ▸ hc)) (by simp)]
      rw [ih (fun x hx => h x (List.mem_cons_of_mem _ hx))]
      rfl
  unfold linesOf
  rw [hs]
  show (if (rows ++ [[]]).getLast? = some [] then (rows ++ [[]]).dropLast
    else (rows ++ [[]])) = rows
  rw [List.getLast?_concat, if_pos rfl, List.dropLast_concat]

/-! ### Parsing the rendered numerals -/

theorem takeWhile_digits_append (a b : List Char) (x : Char)
    (ha : ∀ c ∈ a, Char.isDigit c = true) (hx : Char.isDigit x = false) :
    (a ++ x :: b).takeWhile Char.isDigit = a
    ∧ (a ++ x :: b).dropWhile Char.isDigit = x :: b := by
  induction a with
  | nil =>
    simp only [List.nil_append, List.takeWhile_cons, List.dropWhile_cons, hx]
    simp
  | cons c rest ih =>
    have hc := ha c (List.mem_cons_self _ _)
    obtain ⟨h1, h2⟩ := ih (fun y hy => ha y (List.mem_cons_of_mem _ hy))
    simp only [List.cons_append, List.takeWhile_cons, List.dropWhile_cons, hc]
    simp [h1, h2]

theorem natOfDigits_append (l1 l2 : List ℕ) :
    natOfDigits (l1 ++ l2) = natOfDigits l1 + 10 ^ l1.length * natOfDigits l2 := by
  induction l1 with
  | nil => simp [natOfDigits]
  | cons d l ih =>
    simp only [List.cons_append, natOfDigits, List.foldr_cons] at ih ⊢
    rw [ih, List.length_cons, pow_succ]
    ring

theorem natOfDigits_zeros (l : List ℕ) (h : ∀ d ∈ l, d = 0) :
    natOfDigits l = 0 := by
  induction l with
  | nil => rfl
  | cons d l ih =>
    simp only [natOfDigits, List.foldr_cons] at ih ⊢
    rw [ih (fun x hx => h x (List.mem_cons_of_mem _ hx)),
      h d (List.mem_cons_self _ _)]

theorem natOfDigits_dropWhile_zero (l : List ℕ) :
    natOfDigits l = 10 ^ (l.takeWhile (fun d => d == 0)).length
      * natOfDigits (l.dropWhile (fun d => d == 0)) := by
  conv_lhs => rw [← List.takeWhile_append_dropWhile (fun d => d == 0) l]
  rw [natOfDigits_append,
    natOfDigits_zeros _ (fun d hd => by simpa using List.mem_takeWhile_imp hd)]
  ring

theorem parseNat_zero_char : parseNat ['0'] = 0 := by decide

theorem abs_den_eq (q : ℚ) : |q|.den = q.den := by
  rcases abs_cases q with ⟨h, _⟩ | ⟨h, _⟩
  · rw [h]
  · rw [h]
    rfl

/-- On denominators dividing a power of ten, scaling by `10 ^ k` clears the
denominator exactly: the integer `N` computed inside `renderDec` recovers
`|q|` as `N / 10 ^ k`. -/
theorem renderDec_scale (q : ℚ) (h : q.den ∣ 10 ^ q.den) :
    (((|q| * (10 : ℚ) ^ q.den).num.toNat : ℕ) : ℚ) = |q| * (10 : ℚ) ^ q.den := by
  obtain ⟨c, hc⟩ := h
  have hden0 : ((q.den : ℚ)) ≠ 0 := by
    exact_mod_cast (Rat.den_pos q).ne'
  have hd : |q|.den = q.den := abs_den_eq q
  have hpow : ((10 : ℚ)) ^ q.den = ((q.den : ℚ)) * ((c : ℕ) : ℚ) := by
    exact_mod_cast hc
  have key : |q| * (10 : ℚ) ^ q.den = ((|q|.num * (c : ℤ) : ℤ) : ℚ) := by
    calc |q| * (10 : ℚ) ^ q.den
        = ((|q|.num : ℚ) / (|q|.den : ℚ)) * (10 : ℚ) ^ q.den := by
          rw [Rat.num_div_den]
      _ = ((|q|.num : ℚ) / (q.den : ℚ)) * (((q.den : ℚ)) * ((c : ℕ) : ℚ)) := by
          rw [hd, hpow]
      _ = (|q|.num : ℚ) * ((c : ℕ) : ℚ) := by
          field_simp
          ring
      _ = ((|q|.num * (c : ℤ) : ℤ) : ℚ) := by
          push_cast
          ring
  have hnn : 0 ≤ |q|.num * (c : ℤ) :=
    mul_nonneg (Rat.num_nonneg.mpr (abs_nonneg q)) (by positivity)
  rw [key, Rat.num_intCast]
  exact_mod_cast congrArg (fun z => ((z : ℤ) : ℚ)) (Int.toNat_of_nonneg hnn)

theorem parseDecAux_numeral (A : ℕ) (frac : List Char) (hfrac_ne : frac ≠ [])
    (hfrac_digits : ∀ c ∈ frac, c.isDigit = true) :
    parseDecAux (natToChars A ++ '.' :: frac)
      = some ((A : ℚ) + (parseNat frac : ℚ) / 10 ^ frac.length) := by
  obtain ⟨htake, hdrop⟩ := takeWhile_digits_append (natToChars A) frac '.'
    (natToChars_isDigit A) (by decide)
  simp only [parseDecAux, htake, hdrop]
  rw [if_neg (by simp [List.isEmpty_iff, natToChars_ne_nil A])]
  rw [if_neg (by simp)]
  rw [if_pos (by simp)]
  simp only [List.tail_cons]
  rw [if_neg (by simp [List.isEmpty_iff, hfrac_ne])]
  rw [if_pos (by rw [List.all_eq_true]; exact hfrac_digits)]
  rw [parseNat_natToChars]

/-- The fractional digit list of `renderDec` evaluates back to the scaled
remainder: stripped digits over their own length reproduce `m / 10 ^ k`. -/
theorem renderDec_frac_value (m k : ℕ) (hm : m < 10 ^ k) :
    (((natOfDigits ((natDigitsF m m ++ List.replicate (k - (natDigitsF m m).length) 0).dropWhile
        (fun d => d == 0)) : ℕ) : ℚ))
      / 10 ^ ((natDigitsF m m ++ List.replicate (k - (natDigitsF m m).length) 0).dropWhile
          (fun d => d == 0)).length
      = (m : ℚ) / 10 ^ k := by
  set L := natDigitsF m m ++ List.replicate (k - (natDigitsF m m).length) 0 with hL
  have hlen : L.length = k := by
    rw [hL, List.length_append, List.length_replicate]
    have := natDigitsF_length_le m m k hm
    omega
  have hval : natOfDigits L = m := by
    rw [hL, natOfDigits_append, natOfDigits_zeros _ (fun d hd => List.eq_of_mem_replicate hd)]
    simp [natOfDigits_natDigitsF m m le_rfl]
  have hsplit := natOfDigits_dropWhile_zero L
  have hlensplit : (L.takeWhile (fun d => d == 0)).length
      + (L.dropWhile (fun d => d == 0)).length = k := by
    rw [← hlen, ← List.length_append, List.takeWhile_append_dropWhile]
  set tl := (L.takeWhile (fun d => d == 0)).length with htl
  set S := natOfDigits (L.dropWhile (fun d => d == 0)) with hS
  have hmS : m = 10 ^ tl * S := by rw [← hval, hsplit]
  have h10 : ((10 : ℚ)) ^ tl ≠ 0 := by positivity
  rw [← hlensplit, hmS]
  push_cast
  rw [pow_add]
  field_simp
  ring

/-- Round trip of the float rendering: parsing `renderDec q` recovers `q`
exactly, for every rational whose denominator divides a power of ten (in
particular for the exact value of every Python float). -/
theorem parseDec_renderDec (q : ℚ) (h : q.den ∣ 10 ^ q.den) :
    parseDec (renderDec q) = some q := by
  have hscale := renderDec_scale q h
  set k := q.den with hk
  set N : ℕ := (|q| * (10 : ℚ) ^ k).num.toNat with hN
  set m := N % 10 ^ k with hm
  set L := natDigitsF m m ++ List.replicate (k - (natDigitsF m m).length) 0 with hL
  set frac : List Char := if (L.dropWhile (fun d => d == 0)).isEmpty then ['0']
    else ((L.dropWhile (fun d => d == 0)).map digitChar).reverse with hfrac
  have hfrac_ne : frac ≠ [] := by
    rw [hfrac]
    split
    · simp
    · intro hcon
      rw [List.reverse_eq_nil_iff, List.map_eq_nil_iff] at hcon
      simp_all [List.isEmpty_iff]
  have hfrac_digits : ∀ c ∈ frac, c.isDigit = true := by
    intro c hcm
    rw [hfrac] at hcm
    split at hcm
    · simp only [List.mem_singleton] at hcm
      subst hcm
      decide
    · rw [List.mem_reverse, List.mem_map] at hcm
      obtain ⟨d, hd, rfl⟩ := hcm
      exact digitChar_isDigit d (fracStripped_lt m k d hd)
  have hbody : renderDec q
      = (if q < 0 then ['-'] else []) ++ natToChars (N / 10 ^ k) ++ '.' :: frac := by
    rw [renderDec]
  have habs : |q| = ((N / 10 ^ k : ℕ) : ℚ) + (m : ℚ) / 10 ^ k := by
    have h10 : ((10 : ℚ)) ^ k ≠ 0 := by positivity
    have hdm : (10 ^ k) * (N / 10 ^ k) + N % 10 ^ k = N := Nat.div_add_mod N (10 ^ k)
    have hNq : |q| = ((N : ℕ) : ℚ) / 10 ^ k := by
      rw [hscale]
      field_simp
    have h1 : ((10 ^ k * (N / 10 ^ k) + N % 10 ^ k : ℕ) : ℚ) = ((N : ℕ) : ℚ) := by
      rw [hdm]
    push_cast at h1
    rw [hNq, ← h1, ← hm]
    field_simp
    ring
  have hfracval : (parseNat frac : ℚ) / 10 ^ frac.length = (m : ℚ) / 10 ^ k := by
    rw [hfrac]
    split
    · rename_i hemp
      rw [parseNat_zero_char]
      have hm0 : m = 0 := by
        have hval : natOfDigits L = m := by
          rw [hL, natOfDigits_append,
            natOfDigits_zeros _ (fun d hd => List.eq_of_mem_replicate hd)]
          simp [natOfDigits_natDigitsF m m le_rfl]
        rw [← hval, natOfDigits_dropWhile_zero L]
        rw [List.isEmpty_iff] at hemp
        rw [hemp]
        simp [natOfDigits]
      rw [hm0]
      simp
    · rw [parseNat_reverse_map _ (fun d hd => fracStripped_lt m k d hd)]
      rw [List.length_reverse, List.length_map]
      exact renderDec_frac_value m k (Nat.mod_lt _ (by positivity))
  have hvalue : (((N / 10 ^ k : ℕ) : ℚ)) + (parseNat frac : ℚ) / 10 ^ frac.length
      = |q| := by
    rw [hfracval, habs]
  by_cases hneg : q < 0
  · rw [hbody, if_pos hneg]
    have hhead : ((['-'] ++ natToChars (N / 10 ^ k) ++ '.' :: frac).head?) = some '-' := by
      simp
    rw [parseDec, if_pos hhead]
    have htail : (['-'] ++ natToChars (N / 10 ^ k) ++ '.' :: frac).tail
        = natToChars (N / 10 ^ k) ++ '.' :: frac := by
      simp
    rw [htail, parseDecAux_numeral _ _ hfrac_ne hfrac_digits]
    rw [Option.map_some']
    congr 1
    rw [hvalue, abs_of_neg hneg]
    ring
  · rw [hbody, if_neg hneg, List.nil_append]
    obtain ⟨d, ds, hds⟩ := List.exists_cons_of_ne_nil (natToChars_ne_nil (N / 10 ^ k))
    have hd_digit : d.isDigit = true := by
      apply natToChars_isDigit (N / 10 ^ k)
      rw [hds]
      exact List.mem_cons_self _ _
    have hhead : ((natToChars (N / 10 ^ k) ++ '.' :: frac).head?) ≠ some '-' := by
      rw [hds]
      simp only [List.cons_append, List.head?_cons]
      intro hcon
      have hdq : d = '-' := Option.some.inj hcon
      rw [hdq] at hd_digit
      simp [Char.isDigit] at hd_digit
    rw [parseDec, if_neg hhead, parseDecAux_numeral _ _ hfrac_ne hfrac_digits]
    congr 1
    rw [hvalue, abs_of_nonneg (not_lt.mp hneg)]

/-! ### Lines and the file round trip -/

/-- The body (without the newline) of the line `save_timestamps` writes for
one record. -/
def lineBody (t : WordTimestamp) : List Char :=
  renderDec t.start ++ '|' :: renderDec t.endT ++ '|' :: t.word

/-- The body of the line the `whisper_gen` writer emits for one triple. -/
def lineBody2f (r : ℚ × ℚ × List Char) : List Char :=
  render2f r.1 ++ '|' :: render2f r.2.1 ++ '|' :: r.2.2

theorem save_timestamps_eq (ts : List WordTimestamp) :
    save_timestamps ts = ((ts.map lineBody).map (fun r => r ++ ['\n'])).flatten := by
  unfold save_timestamps lineBody
  rw [List.map_map]
  rfl

theorem whisperWrite_eq (data : List (ℚ × ℚ × List Char)) :
    whisperWrite data = ((data.map lineBody2f).map (fun r => r ++ ['\n'])).flatten := by
  unfold whisperWrite lineBody2f
  rw [List.map_map]
  rfl

theorem lineBody_no_newline (t : WordTimestamp) (hw : '\n' ∉ t.word) :
    '\n' ∉ lineBody t := by
  intro h
  unfold lineBody at h
  rcases List.mem_append.mp h with h1 | h1
  · rcases List.mem_append.mp h1 with h2 | h2
    · exact renderDec_no_newline _ h2
    · rcases List.mem_cons.mp h2 with h3 | h3
      · exact absurd h3 (by decide)
      · exact renderDec_no_newline _ h3
  · rcases List.mem_cons.mp h1 with h2 | h2
    · exact absurd h2 (by decide)
    · exact hw h2

theorem lineBody2f_no_newline (r : ℚ × ℚ × List Char) (hw : '\n' ∉ r.2.2) :
    '\n' ∉ lineBody2f r := by
  intro h
  unfold lineBody2f at h
  rcases List.mem_append.mp h with h1 | h1
  · rcases List.mem_append.mp h1 with h2 | h2
    · exact render2f_no_newline _ h2
    · rcases List.mem_cons.mp h2 with h3 | h3
      · exact absurd h3 (by decide)
      · exact render2f_no_newline _ h3
  · rcases List.mem_cons.mp h1 with h2 | h2
    · exact absurd h2 (by decide)
    · exact hw h2

theorem linesOf_save (ts : List WordTimestamp) (hw : ∀ t ∈ ts, '\n' ∉ t.word) :
    linesOf (save_timestamps ts) = ts.map lineBody := by
  rw [save_timestamps_eq]
  apply linesOf_concat
  intro r hr
  rw [List.mem_map] at hr
  obtain ⟨t, ht, rfl⟩ := hr
  exact lineBody_no_newline t (hw t ht)

theorem linesOf_whisper (data : List (ℚ × ℚ × List Char))
    (hw : ∀ r ∈ data, '\n' ∉ r.2.2) :
    linesOf (whisperWrite data) = data.map lineBody2f := by
  rw [whisperWrite_eq]
  apply linesOf_concat
  intro r hr
  rw [List.mem_map] at hr
  obtain ⟨t, ht, rfl⟩ := hr
  exact lineBody2f_no_newline t (hw t ht)

theorem not_mem_beq_false (x : Char) (l : List Char) (h : x ∉ l) :
    ∀ c ∈ l, (c == x) = false := by
  intro c hc
  simp only [beq_eq_false_iff_ne, ne_eq]
  intro hcx
  exact h (hcx ▸ hc)

theorem splitP_three_fields (A B W : List Char)
    (hA : '|' ∉ A) (hB : '|' ∉ B) (hW : '|' ∉ W) :
    splitP (fun c => c == '|') ((A ++ '|' :: B) ++ '|' :: W) = [A, B, W] := by
  rw [show (A ++ '|' :: B) ++ '|' :: W = A ++ '|' :: (B ++ '|' :: W) by simp]
  rw [splitP_append_sep _ '|' _ _ (not_mem_beq_false '|' A hA) (by simp)]
  rw [splitP_append_sep _ '|' _ _ (not_mem_beq_false '|' B hB) (by simp)]
  rw [splitP_no_sep _ _ (not_mem_beq_false '|' W hW)]

theorem parseLine_lineBody (t : WordTimestamp) (hw : '|' ∉ t.word)
    (hs : parseDec (renderDec t.start) = some t.start)
    (he : parseDec (renderDec t.endT) = some t.endT) :
    parseLine (lineBody t) = some t := by
  unfold parseLine lineBody
  rw [splitP_three_fields _ _ _ (renderDec_no_pipe _) (renderDec_no_pipe _) hw]
  show (match parseDec (renderDec t.start), parseDec (renderDec t.endT) with
    | some a, some b => some { start := a, endT := b, word := t.word }
    | _, _ => none) = some t
  rw [hs, he]

theorem mapM_parseLine_lineBody (ts : List WordTimestamp)
    (hok : ∀ t ∈ ts, ('|' ∉ t.word)
      ∧ t.start.den ∣ 10 ^ t.start.den ∧ t.endT.den ∣ 10 ^ t.endT.den) :
    (ts.map lineBody).mapM parseLine = some ts := by
  induction ts with
  | nil => rfl
  | cons t ts ih =>
    obtain ⟨hw, hds, hde⟩ := hok t (List.mem_cons_self _ _)
    simp only [List.map_cons, List.mapM_cons]
    rw [parseLine_lineBody t hw (parseDec_renderDec _ hds) (parseDec_renderDec _ hde)]
    rw [ih (fun x hx => hok x (List.mem_cons_of_mem _ hx))]
    rfl

/-! ### Claim C5 -/

/-- Counterexample to C5 as stated: a word containing `'|'` breaks the
round trip — the line for `(0.0, 1.0, "a|b")` splits into four fields, which
the parse loop rejects, so re-parsing does not yield the original record. -/
theorem c5_counterexample :
    parseFile (save_timestamps [{ start := 0, endT := 1, word := "a|b".toList }])
      = none := by
  unfold parseFile
  rw [linesOf_save _ (by decide)]
  have hsplit : splitP (fun c => c == '|')
      (lineBody { start := 0, endT := 1, word := "a|b".toList })
      = [renderDec 0, renderDec 1, ['a'], ['b']] := by
    unfold lineBody
    rw [show (renderDec (0:ℚ) ++ '|' :: renderDec (1:ℚ)) ++ '|' :: "a|b".toList
        = renderDec (0:ℚ) ++ '|' :: (renderDec (1:ℚ) ++ '|' :: "a|b".toList) by simp]
    rw [splitP_append_sep _ '|' _ _ (not_mem_beq_false '|' _ (renderDec_no_pipe _)) (by simp)]
    rw [splitP_append_sep _ '|' _ _ (not_mem_beq_false '|' _ (renderDec_no_pipe _)) (by simp)]
    rw [show splitP (fun c => c == '|') ("a|b".toList) = [['a'], ['b']] from by decide]
  have hline : parseLine (lineBody { start := 0, endT := 1, word := "a|b".toList })
      = none := by
    unfold parseLine
    rw [hsplit]
  simp only [List.map_cons, List.map_nil, List.mapM_cons, hline]
  rfl

/-- Claim C5 (amended): writing any sequence of records whose words contain
no pipe and no line-break character, and whose times are exact decimal
fractions (as the value of every Python float is), and re-parsing the file
yields exactly the original records — the words equal and the times exactly
equal, in particular within 0.01 s. -/
theorem c5_file_roundtrip (ts : List WordTimestamp)
    (hok : ∀ t ∈ ts, (∀ c ∈ t.word, c ≠ '|' ∧ isLineBreak c = false)
      ∧ t.start.den ∣ 10 ^ t.start.den ∧ t.endT.den ∣ 10 ^ t.endT.den) :
    parseFile (save_timestamps ts) = some ts := by
  unfold parseFile
  rw [linesOf_save ts (fun t ht => fun hmem =>
    absurd ((hok t ht).1 '\n' hmem).2 (by decide))]
  exact mapM_parseLine_lineBody ts (fun t ht =>
    ⟨fun hmem => ((hok t ht).1 '|' hmem).1 rfl, (hok t ht).2.1, (hok t ht).2.2⟩)

/-- Witness for C5: two records with integral times. -/
theorem c5_file_roundtrip_witness :
    parseFile (save_timestamps
        [{ start := 0, endT := 1, word := "hi".toList },
         { start := 5, endT := 12, word := "ok".toList }])
      = some [{ start := 0, endT := 1, word := "hi".toList },
              { start := 5, endT := 12, word := "ok".toList }] :=
  c5_file_roundtrip _ (by decide)

/-! ### Claim C6 -/

theorem isTwoDecNumeral_shape (ds : List Char) (d1 d2 : Char)
    (hne : ds ≠ []) (hds : ∀ c ∈ ds, c.isDigit = true)
    (h1 : d1.isDigit = true) (h2 : d2.isDigit = true) :
    isTwoDecNumeral (ds ++ '.' :: d1 :: [d2]) = true := by
  unfold isTwoDecNumeral
  rw [show (ds ++ '.' :: d1 :: [d2]).reverse = d2 :: d1 :: '.' :: ds.reverse by simp]
  simp only [h1, h2, Bool.and_true, Bool.true_and, Bool.and_eq_true,
    Bool.not_eq_true', List.all_eq_true]
  constructor
  · simp [List.isEmpty_iff, hne]
  · intro c hc
    exact hds c (List.mem_reverse.mp hc)

theorem round_nonneg_of_nonneg (q : ℚ) (hq : 0 ≤ q) : 0 ≤ round (q * 100) := by
  rw [round_eq]
  apply Int.floor_nonneg.mpr
  nlinarith

theorem isTwoDecNumeral_render2f (q : ℚ) (hq : 0 ≤ q) :
    isTwoDecNumeral (render2f q) = true := by
  have hnn : ¬ (round (q * 100) < 0) := not_lt.mpr (round_nonneg_of_nonneg q hq)
  have hshape : render2f q
      = natToChars ((round (q * 100)).natAbs / 100)
        ++ '.' :: digitChar ((round (q * 100)).natAbs / 10 % 10)
        :: [digitChar ((round (q * 100)).natAbs % 10)] := by
    rw [render2f]
    rw [if_neg hnn, List.nil_append]
  rw [hshape]
  exact isTwoDecNumeral_shape _ _ _ (natToChars_ne_nil _) (natToChars_isDigit _)
    (digitChar_isDigit _ (by omega)) (digitChar_isDigit _ (by omega))

theorem twoDecLine_lineBody2f (r : ℚ × ℚ × List Char)
    (h1 : 0 ≤ r.1) (h2 : 0 ≤ r.2.1) : twoDecLine (lineBody2f r) = true := by
  unfold twoDecLine lineBody2f
  rw [show (render2f r.1 ++ '|' :: render2f r.2.1) ++ '|' :: r.2.2
      = render2f r.1 ++ '|' :: (render2f r.2.1 ++ '|' :: r.2.2) by simp]
  rw [splitP_append_sep _ '|' _ _ (not_mem_beq_false '|' _ (render2f_no_pipe _)) (by simp)]
  rw [splitP_append_sep _ '|' _ _ (not_mem_beq_false '|' _ (render2f_no_pipe _)) (by simp)]
  obtain ⟨w0, rest, hw⟩ :=
    List.exists_cons_of_ne_nil (splitP_ne_nil (fun c => c == '|') r.2.2)
  rw [hw]
  show (isTwoDecNumeral (render2f r.1) && isTwoDecNumeral (render2f r.2.1)) = true
  rw [isTwoDecNumeral_render2f _ h1, isTwoDecNumeral_render2f _ h2]
  rfl

theorem renderDec_zero_eval : renderDec 0 = "0.0".toList := by
  have hden : (0 : ℚ).den = 1 := rfl
  have hN : (|(0 : ℚ)| * (10 : ℚ) ^ (1 : ℕ)).num.toNat = 0 := by
    rw [abs_zero, zero_mul]
    rfl
  rw [renderDec, hden, hN]
  rw [if_neg (by norm_num)]
  decide

theorem renderDec_one_eval : renderDec 1 = "1.0".toList := by
  have hden : (1 : ℚ).den = 1 := rfl
  have hN : (|(1 : ℚ)| * (10 : ℚ) ^ (1 : ℕ)).num.toNat = 10 := by
    rw [abs_one, one_mul, pow_one]
    rfl
  rw [renderDec, hden, hN]
  rw [if_neg (by norm_num)]
  decide

/-- Counterexample to C6 as stated: `save_timestamps` renders with Python's
`str`, which elides trailing zeros — the record `(0.0, 1.0, "hi")` is written
as the line `0.0|1.0|hi`, whose numeric fields have one decimal place, not
two. -/
theorem c6_counterexample :
    linesOf (save_timestamps [{ start := 0, endT := 1, word := "hi".toList }])
      = ["0.0|1.0|hi".toList]
    ∧ twoDecLine ("0.0|1.0|hi".toList) = false := by
  constructor
  · rw [linesOf_save _ (by decide)]
    rw [List.map_cons, List.map_nil]
    rw [show lineBody { start := 0, endT := 1, word := "hi".toList }
        = (renderDec 0 ++ '|' :: renderDec 1) ++ '|' :: "hi".toList from rfl]
    rw [renderDec_zero_eval, renderDec_one_eval]
    rfl
  · decide

/-- Claim C6 (amended): both writers emit exactly one `start|end|word` line,
pipe-delimited and newline-terminated, per record, with no header; the
`whisper_gen` writer renders its (non-negative) times with exactly two
decimal places, while `save_timestamps` renders with Python `str`, which
elides trailing zeros. -/
theorem c6_line_format (data : List (ℚ × ℚ × List Char)) (ts : List WordTimestamp)
    (hdata : ∀ r ∈ data, 0 ≤ r.1 ∧ 0 ≤ r.2.1 ∧ '\n' ∉ r.2.2)
    (hts : ∀ t ∈ ts, '\n' ∉ t.word) :
    linesOf (whisperWrite data)
        = data.map (fun r => render2f r.1 ++ '|' :: render2f r.2.1 ++ '|' :: r.2.2)
    ∧ linesOf (save_timestamps ts)
        = ts.map (fun t => renderDec t.start ++ '|' :: renderDec t.endT ++ '|' :: t.word)
    ∧ ∀ l ∈ linesOf (whisperWrite data), twoDecLine l = true := by
  have hlw : linesOf (whisperWrite data) = data.map lineBody2f :=
    linesOf_whisper data (fun r hr => (hdata r hr).2.2)
  refine ⟨hlw, linesOf_save ts hts, ?_⟩
  intro l hl
  rw [hlw, List.mem_map] at hl
  obtain ⟨r, hr, rfl⟩ := hl
  exact twoDecLine_lineBody2f r (hdata r hr).1 (hdata r hr).2.1

/-- Witness for C6 at one whisper triple and one saved record. -/
theorem c6_line_format_witness :
    linesOf (whisperWrite [((0 : ℚ), (1 : ℚ), "hi".toList)])
        = [render2f 0 ++ '|' :: render2f 1 ++ '|' :: "hi".toList]
    ∧ linesOf (save_timestamps [{ start := 0, endT := 1, word := "hi".toList }])
        = [renderDec 0 ++ '|' :: renderDec 1 ++ '|' :: "hi".toList]
    ∧ ∀ l ∈ linesOf (whisperWrite [((0 : ℚ), (1 : ℚ), "hi".toList)]),
        twoDecLine l = true := by
  have h := c6_line_format [((0 : ℚ), (1 : ℚ), "hi".toList)]
    [{ start := 0, endT := 1, word := "hi".toList }]
    (by
      intro r hr
      rw [List.mem_singleton] at hr
      subst hr
      exact ⟨le_refl 0, by norm_num, by decide⟩)
    (by decide)
  exact ⟨h.1, h.2.1, h.2.2⟩
